import Mathlib

/-!
# FormatWord — verification of the segment alignment and rewrite engines

Shallow embedding of the FormatWord core (JavaScript) in Lean 4.

Modelling conventions, used consistently below:
* JavaScript strings are modelled as `List Char`.
* JavaScript `Map` objects are modelled as insertion-ordered association
  lists; `Map.set` keeps the original position of an existing key
  (`mapSet`), `Map.get` is `mapLookup`.
* JavaScript floating-point score arithmetic is modelled over `ℚ`
  (exact rationals); decimal literals such as `0.3` denote the exact
  rational, not the IEEE double.
* The DOM paragraph/run/text-node tree is modelled by `Run` (a list of
  text nodes plus the run-properties highlight marker) and a paragraph
  is a `List Run`.
* Regular-expression scans (`extractAnchors`) are modelled by explicit
  left-to-right scanners with leftmost-greedy semantics.
-/

namespace FormatWord

/-- Whitespace class used to model the JavaScript `\s` character class and
`String.prototype.trim` (ASCII whitespace; the engine only ever feeds it
newline-delimited translation text). -/
def isJsWs (c : Char) : Bool :=
  c = ' ' || c = '\t' || c = '\n' || c = '\r' || c.toNat = 11 || c.toNat = 12

/-- Model of JavaScript `String.prototype.trim`: drop leading and trailing
whitespace. -/
def jsTrim (l : List Char) : List Char :=
  ((l.dropWhile isJsWs).reverse.dropWhile isJsWs).reverse

/-- Model of `text.split(/\r?\n/)` (from `splitIntoParagraphs` in both
`textMatcher.js` variants): split on `\n`, also consuming a `\r`
immediately before the `\n`. -/
def splitRN : List Char → List (List Char)
  | [] => [[]]
  | '\r' :: '\n' :: rest => [] :: splitRN rest
  | '\n' :: rest => [] :: splitRN rest
  | c :: rest =>
    match splitRN rest with
    | [] => [[c]]
    | l :: ls => (c :: l) :: ls

/-- `splitIntoParagraphs` (identical in `src/src/engine/textMatcher.js` and
`src/unnamed/part_000`): split on newlines, trim each line, keep the
non-empty ones. -/
def splitIntoParagraphs (text : List Char) : List (List Char) :=
  ((splitRN text).map jsTrim).filter (fun line => line.length > 0)

/-- Model of JavaScript `Array.prototype.join(' ')`. -/
def joinSpace : List (List Char) → List Char
  | [] => []
  | [x] => x
  | x :: xs => x ++ ' ' :: joinSpace xs

/-- JavaScript `Map.set`: overwrite in place if the key exists, else append. -/
def mapSet (m : List (Nat × List Char)) (k : Nat) (v : List Char) :
    List (Nat × List Char) :=
  if m.any (fun p => p.1 = k) then
    m.map (fun p => if p.1 = k then (k, v) else p)
  else m ++ [(k, v)]

/-- JavaScript `Map.get` (as an `Option`). -/
def mapLookup (m : List (Nat × List Char)) (k : Nat) : Option (List Char) :=
  (m.find? (fun p => p.1 = k)).map (fun p => p.2)

/-- One extracted source segment (`{id, text}` as consumed by `matchTexts`). -/
structure Segment where
  id : Nat
  text : List Char
deriving Repr, DecidableEq, Inhabited

/-- The `stats` object produced by `matchTexts`. -/
structure MatchStats where
  total : Nat
  matched : Nat
  fuzzy : Nat
  unmatched : Nat
  method : List Char
deriving Repr, DecidableEq

/-- Result of the strict positional `matchTexts`
(`src/src/engine/textMatcher.js`). -/
structure StrictResult where
  mapping : List (Nat × List Char)
  unmatched : List Segment
  stats : MatchStats
deriving Repr, DecidableEq

/-- The strict positional matching strategy: `matchTexts` from
`src/src/engine/textMatcher.js`.  Case 1: equal counts → 1:1 by index.
Case 2: more segments than paragraphs → map the prefix, excess segments
unmatched.  Case 3: more paragraphs than segments → every segment except
the last maps by index, the last absorbs `slice(srcCount-1).join(' ')`. -/
def matchTextsStrict (sourceSegments : List Segment) (translationText : List Char) :
    StrictResult :=
  let tps := splitIntoParagraphs translationText
  let srcCount := sourceSegments.length
  let trgCount := tps.length
  if srcCount = trgCount then
    { mapping := (sourceSegments.zip tps).foldl
        (fun m p => mapSet m p.1.id p.2) []
      unmatched := []
      stats := { total := srcCount, matched := srcCount, fuzzy := 0,
                 unmatched := 0, method := "structure-1:1".data } }
  else if srcCount > trgCount then
    { mapping := (sourceSegments.zip tps).foldl
        (fun m p => mapSet m p.1.id p.2) []
      unmatched := sourceSegments.drop trgCount
      stats := { total := srcCount, matched := trgCount, fuzzy := 0,
                 unmatched := srcCount - trgCount,
                 method := "sequential-partial".data } }
  else
    { mapping := sourceSegments.enum.foldl
        (fun m p => mapSet m p.2.id
          (if p.1 < srcCount - 1 then tps.getD p.1 []
           else joinSpace (tps.drop p.1))) []
      unmatched := []
      stats := { total := srcCount, matched := srcCount,
                 fuzzy := trgCount - srcCount, unmatched := 0,
                 method := "sequential-merge".data } }

/-- `normalize` from `src/unnamed/part_000`: `replace(/\s+/g, ' ').trim()` —
collapse every whitespace run to a single space, then trim.  The Boolean
argument records whether the previous character was whitespace. -/
def collapseWsGo : Bool → List Char → List Char
  | _, [] => []
  | prevWs, c :: rest =>
    if isJsWs c then
      (if prevWs then [] else [' ']) ++ collapseWsGo true rest
    else c :: collapseWsGo false rest

/-- `normalize(text)` — collapse whitespace and trim. -/
def normalize (text : List Char) : List Char :=
  jsTrim (collapseWsGo false text)

theorem length_dropWhile_le (p : Char → Bool) (l : List Char) :
    (l.dropWhile p).length ≤ l.length :=
  (List.dropWhile_sublist (p := p) (l := l)).length_le

/-- Fuel-based worker for `splitWs` (the fuel, one unit per consumed
character, makes the definition structurally recursive and hence
kernel-computable; `splitWs` always supplies enough fuel). -/
def splitWsGo : Nat → List Char → List (List Char)
  | 0, _ => [[]]
  | _ + 1, [] => [[]]
  | fuel + 1, c :: rest =>
    if isJsWs c then [] :: splitWsGo fuel (rest.dropWhile isJsWs)
    else
      match splitWsGo fuel rest with
      | [] => [[c]]
      | p :: ps => (c :: p) :: ps

/-- Model of `text.split(/\s+/)`: pieces between maximal whitespace runs
(JavaScript yields an empty leading/trailing piece when the text starts or
ends with whitespace). -/
def splitWs (l : List Char) : List (List Char) := splitWsGo (l.length + 1) l

/-- JavaScript `\w` word character: `[A-Za-z0-9_]`. -/
def isWordChar (c : Char) : Bool := c.isAlphanum || c = '_'

/-- Character that may appear in the local/domain part of the e-mail regex
`[\w.-]`. -/
def isEmailChar (c : Char) : Bool := isWordChar c || c = '.' || c = '-'

/-- Continuation character class `[a-zÀ-ÿ]` of the proper-noun regex. -/
def isProperTail (c : Char) : Bool :=
  ('a' ≤ c && c ≤ 'z') || (0xC0 ≤ c.toNat && c.toNat ≤ 0xFF)

/-- `[A-Z]`. -/
def isUpperAZ (c : Char) : Bool := 'A' ≤ c && c ≤ 'Z'

/-- Fuel-based worker for `numTailLen`. -/
def numTailLenGo : Nat → List Char → Nat
  | 0, _ => 0
  | fuel + 1, c :: d :: rest =>
    if (c = '.' || c = ',') && d.isDigit then
      let ds := (d :: rest).takeWhile Char.isDigit
      1 + ds.length + numTailLenGo fuel ((d :: rest).dropWhile Char.isDigit)
    else 0
  | _ + 1, _ => 0

/-- Number of characters consumed by the greedy tail `([.,]\d+)*` of the
number regex `/\d+([.,]\d+)*/`. -/
def numTailLen (l : List Char) : Nat := numTailLenGo (l.length + 1) l

/-- Fuel-based worker for `scanNumbers`. -/
def scanNumbersGo : Nat → List Char → List (List Char)
  | 0, _ => []
  | _ + 1, [] => []
  | fuel + 1, c :: rest =>
    if c.isDigit then
      let ds := (c :: rest).takeWhile Char.isDigit
      let r1 := (c :: rest).dropWhile Char.isDigit
      let k := numTailLen r1
      (ds ++ r1.take k) :: scanNumbersGo fuel (r1.drop k)
    else scanNumbersGo fuel rest

/-- Scan for all matches of `/\d+([.,]\d+)*/g` in left-to-right order:
a maximal digit run followed by the greedy `([.,]\d+)*` tail. -/
def scanNumbers (l : List Char) : List (List Char) :=
  scanNumbersGo (l.length + 1) l

/-- Greedy-with-backtracking suffix of the e-mail regex after the `@`:
given the maximal `[\w.-]` run `r2`, find the match end — the split of
`r2` as `a ++ '.' :: w ++ rest` with `w` a nonempty word-character run and
the split point as late as possible.  Returns the matched part of `r2`. -/
def emailTailSplit (r2 : List Char) : Option (List Char) :=
  match r2 with
  | [] => none
  | c :: rest =>
    match emailTailSplit rest with
    | some t => some (c :: t)
    | none =>
      if c = '.' && (rest.takeWhile isWordChar ≠ []) then
        some (c :: rest.takeWhile isWordChar)
      else none

/-- Fuel-based worker for `scanEmails`. -/
def scanEmailsGo : Nat → List Char → List Char → List (List Char)
  | 0, _, _ => []
  | _ + 1, _, [] => []
  | fuel + 1, rev, c :: rest =>
    if c = '@' && (rev.takeWhile isEmailChar ≠ []) then
      let r1 := (rev.takeWhile isEmailChar).reverse
      let r2 := rest.takeWhile isEmailChar
      match emailTailSplit r2 with
      | some t => (r1 ++ '@' :: t) :: scanEmailsGo fuel [] (rest.drop t.length)
      | none => scanEmailsGo fuel (c :: rev) rest
    else scanEmailsGo fuel (c :: rev) rest

/-- Scan for all matches of `/[\w.-]+@[\w.-]+\.\w+/g` in left-to-right
order (leftmost match, greedy quantifiers with backtracking on the final
`\.\w+`).  The first argument is the reversed not-yet-consumed prefix,
used to extend the local part leftwards; it is reset after a match
because the next match must start after the previous match's end. -/
def scanEmails (rev : List Char) (l : List Char) : List (List Char) :=
  scanEmailsGo (l.length + 1) rev l

/-- Lookbehind `(?<=[.!?]\s+\w+\s+)` checked on the reversed prefix:
reading backwards — nonempty whitespace run, nonempty word run, nonempty
whitespace run, then one of `.`, `!`, `?`. -/
def properLookbehind (rev : List Char) : Bool :=
  let ws1 := rev.takeWhile isJsWs
  let r1 := rev.dropWhile isJsWs
  let wd := r1.takeWhile isWordChar
  let r2 := r1.dropWhile isWordChar
  let ws2 := r2.takeWhile isJsWs
  let r3 := r2.dropWhile isJsWs
  ws1 ≠ [] && wd ≠ [] && ws2 ≠ [] &&
    (match r3 with
     | c :: _ => c = '.' || c = '!' || c = '?'
     | [] => false)

/-- Fuel-based worker for `scanProper`. -/
def scanProperGo : Nat → List Char → List Char → List (List Char)
  | 0, _, _ => []
  | _ + 1, _, [] => []
  | fuel + 1, rev, c :: rest =>
    if isUpperAZ c && properLookbehind rev &&
        (rest.takeWhile isProperTail ≠ []) then
      let t := rest.takeWhile isProperTail
      (c :: t) ::
        scanProperGo fuel (t.reverse ++ c :: rev) (rest.dropWhile isProperTail)
    else scanProperGo fuel (c :: rev) rest

/-- Scan for all matches of `/(?<=[.!?]\s+\w+\s+)[A-Z][a-zÀ-ÿ]+/g`.
The first argument is the reversed already-scanned prefix (the lookbehind
context). -/
def scanProper (rev : List Char) (l : List Char) : List (List Char) :=
  scanProperGo (l.length + 1) rev l

/-- Fuel-based worker for `scanUrls`. -/
def scanUrlsGo : Nat → List Char → List (List Char)
  | 0, _ => []
  | fuel + 1, 'h' :: 't' :: 't' :: 'p' :: 's' :: ':' :: '/' :: '/' :: d :: tl =>
    if isJsWs d then
      scanUrlsGo fuel ('t' :: 't' :: 'p' :: 's' :: ':' :: '/' :: '/' :: d :: tl)
    else
      ('h' :: 't' :: 't' :: 'p' :: 's' :: ':' :: '/' :: '/' ::
          (d :: tl).takeWhile (fun x => !isJsWs x)) ::
        scanUrlsGo fuel ((d :: tl).dropWhile (fun x => !isJsWs x))
  | fuel + 1, 'h' :: 't' :: 't' :: 'p' :: ':' :: '/' :: '/' :: d :: tl =>
    if isJsWs d then
      scanUrlsGo fuel ('t' :: 't' :: 'p' :: ':' :: '/' :: '/' :: d :: tl)
    else
      ('h' :: 't' :: 't' :: 'p' :: ':' :: '/' :: '/' ::
          (d :: tl).takeWhile (fun x => !isJsWs x)) ::
        scanUrlsGo fuel ((d :: tl).dropWhile (fun x => !isJsWs x))
  | fuel + 1, _ :: rest => scanUrlsGo fuel rest
  | _ + 1, [] => []

/-- Scan for all matches of `/https?:\/\/\S+/g`: the literal prefix
`http` / `https` followed by `://` and a nonempty greedy run of
non-whitespace characters; on failure the scan advances one character. -/
def scanUrls (l : List Char) : List (List Char) := scanUrlsGo (l.length + 1) l

/-- `extractAnchors` from `src/unnamed/part_000`: the set of numeric
tokens, e-mail addresses, URLs and heuristically detected mid-sentence
proper nouns.  The JavaScript `Set` is modelled by `List.dedup`
(only membership and cardinality of the set are ever used). -/
def extractAnchors (text : List Char) : List (List Char) :=
  (scanNumbers text ++ scanEmails [] text ++ scanUrls text ++
    scanProper [] text).dedup

/-- Exact rational score values.  The JavaScript engine computes its
heuristic scores in floating point; the model uses exact rationals,
represented as an unreduced numerator/denominator pair so that every
operation is kernel-computable (Lean's `ℚ` normalizes through `Nat.gcd`,
which the kernel cannot evaluate).  Every `Score` built below has a
positive denominator; `Score.toRat` gives its value in `ℚ`, and the
lemmas `Score.toRat_add` … `Score.lt_iff` show the operations agree with
rational arithmetic. -/
structure Score where
  num : Int
  den : Int
deriving Repr, DecidableEq

/-- Embed a natural number as a score. -/
def Score.ofNat (n : Nat) : Score := ⟨n, 1⟩

/-- Score addition (cross-multiplied, denominators multiply). -/
def Score.add (a b : Score) : Score :=
  ⟨a.num * b.den + b.num * a.den, a.den * b.den⟩

/-- Score subtraction. -/
def Score.sub (a b : Score) : Score :=
  ⟨a.num * b.den - b.num * a.den, a.den * b.den⟩

/-- Score multiplication. -/
def Score.mul (a b : Score) : Score := ⟨a.num * b.num, a.den * b.den⟩

/-- Score division, with the `x / 0 = 0` convention of `ℚ` (the only
division by zero the engine can perform is `0 / 0` in the length-ratio
of two empty normalized strings, where JavaScript produces `NaN` and
every subsequent comparison is false — as it is for `0`). -/
def Score.div (a b : Score) : Score :=
  if b.num = 0 then ⟨0, 1⟩
  else if 0 < b.num then ⟨a.num * b.den, a.den * b.num⟩
  else ⟨-(a.num * b.den), a.den * -b.num⟩

/-- Strict order on scores by cross-multiplication (valid because all
denominators are positive). -/
def Score.lt (a b : Score) : Prop := a.num * b.den < b.num * a.den

instance (a b : Score) : Decidable (Score.lt a b) :=
  inferInstanceAs (Decidable (_ < _))

/-- The rational value of a score. -/
def Score.toRat (s : Score) : ℚ := (s.num : ℚ) / (s.den : ℚ)

theorem Score.toRat_ofNat (n : Nat) : (Score.ofNat n).toRat = n := by
  simp [Score.ofNat, Score.toRat]

theorem Score.toRat_add (a b : Score) (ha : 0 < a.den) (hb : 0 < b.den) :
    (a.add b).toRat = a.toRat + b.toRat := by
  have ha' : (a.den : ℚ) ≠ 0 := by exact_mod_cast ha.ne'
  have hb' : (b.den : ℚ) ≠ 0 := by exact_mod_cast hb.ne'
  rw [Score.add, Score.toRat, Score.toRat, Score.toRat]
  push_cast
  field_simp

theorem Score.toRat_sub (a b : Score) (ha : 0 < a.den) (hb : 0 < b.den) :
    (a.sub b).toRat = a.toRat - b.toRat := by
  have ha' : (a.den : ℚ) ≠ 0 := by exact_mod_cast ha.ne'
  have hb' : (b.den : ℚ) ≠ 0 := by exact_mod_cast hb.ne'
  rw [Score.sub, Score.toRat, Score.toRat, Score.toRat]
  push_cast
  field_simp
  ring

theorem Score.toRat_mul (a b : Score) :
    (a.mul b).toRat = a.toRat * b.toRat := by
  rw [Score.mul, Score.toRat, Score.toRat, Score.toRat]
  push_cast
  rw [div_mul_div_comm]

theorem Score.toRat_div (a b : Score) :
    (a.div b).toRat = a.toRat / b.toRat := by
  rw [Score.div]
  by_cases h0 : b.num = 0
  · rw [if_pos h0]
    simp [Score.toRat, h0]
  · rw [if_neg h0]
    by_cases hpos : 0 < b.num
    · rw [if_pos hpos]
      rw [Score.toRat, Score.toRat, Score.toRat]
      push_cast
      rw [div_div_eq_mul_div, div_mul_eq_mul_div, div_div]
    · rw [if_neg hpos]
      rw [Score.toRat, Score.toRat, Score.toRat]
      push_cast
      rw [mul_neg, neg_div_neg_eq]
      rw [div_div_eq_mul_div, div_mul_eq_mul_div, div_div]

theorem Score.lt_iff (a b : Score) (ha : 0 < a.den) (hb : 0 < b.den) :
    a.lt b ↔ a.toRat < b.toRat := by
  have ha' : (0 : ℚ) < a.den := by exact_mod_cast ha
  have hb' : (0 : ℚ) < b.den := by exact_mod_cast hb
  rw [Score.lt, Score.toRat, Score.toRat, div_lt_div_iff ha' hb']
  constructor
  · intro h
    exact_mod_cast h
  · intro h
    exact_mod_cast h

theorem Score.ofNat_den_pos (n : Nat) : 0 < (Score.ofNat n).den := by
  simp [Score.ofNat]

theorem Score.add_den_pos {a b : Score} (ha : 0 < a.den) (hb : 0 < b.den) :
    0 < (a.add b).den := mul_pos ha hb

theorem Score.sub_den_pos {a b : Score} (ha : 0 < a.den) (hb : 0 < b.den) :
    0 < (a.sub b).den := mul_pos ha hb

theorem Score.mul_den_pos {a b : Score} (ha : 0 < a.den) (hb : 0 < b.den) :
    0 < (a.mul b).den := mul_pos ha hb

theorem Score.div_den_pos {a b : Score} (ha : 0 < a.den) :
    0 < (a.div b).den := by
  rw [Score.div]
  by_cases h0 : b.num = 0
  · rw [if_pos h0]
    simp
  · rw [if_neg h0]
    by_cases hpos : 0 < b.num
    · rw [if_pos hpos]
      exact mul_pos ha hpos
    · rw [if_neg hpos]
      exact mul_pos ha (by omega)

/-- `anchorScore` from `src/unnamed/part_000`: fraction of the source's
anchors also present among the candidate's anchors; `0` when the source
has no anchors. -/
def anchorScore (sourceText translatedText : List Char) : Score :=
  let srcAnchors := extractAnchors sourceText
  let tgtAnchors := extractAnchors translatedText
  if srcAnchors.length = 0 then Score.ofNat 0
  else
    Score.div (Score.ofNat (srcAnchors.countP (fun a => tgtAnchors.contains a)))
      (Score.ofNat srcAnchors.length)

/-- One row-update step of the Levenshtein dynamic program in
`similarity` (`src/unnamed/part_000`): `diag` is `prev[j-1]`, `left` the
entry just computed. -/
def levRowGo (ca : Char) : List Char → List Nat → Nat → Nat → List Nat
  | [], _, _, _ => []
  | _ :: _, [], _, _ => []
  | cb :: bs, pj :: ps, diag, left =>
    let v := min (min (left + 1) (pj + 1)) (diag + (if ca = cb then 0 else 1))
    v :: levRowGo ca bs ps pj v

/-- Compute the next Levenshtein row from the previous one. -/
def levRow (ca : Char) (b : List Char) (prev : List Nat) : List Nat :=
  match prev with
  | [] => []
  | p0 :: ps => (p0 + 1) :: levRowGo ca b ps p0 (p0 + 1)

/-- The Levenshtein edit distance (`matrix[la][lb]` of the source's DP). -/
def editDistance (a b : List Char) : Nat :=
  (a.foldl (fun row ca => levRow ca b row) (List.range (b.length + 1))).getLastD 0

/-- `similarity` from `src/unnamed/part_000`: 1 for equal strings, 0 when
either is empty or the lengths differ by more than 80% of the longer
length; a word-set overlap ratio for strings longer than 500 characters;
otherwise `1 - editDistance/maxLength`. -/
def similarity (a b : List Char) : Score :=
  if a = b then Score.ofNat 1
  else if a.length = 0 || b.length = 0 then Score.ofNat 0
  else
    let la := a.length
    let lb := b.length
    let mx := max la lb
    if Score.lt ⟨8, 10⟩ (Score.div (Score.ofNat (mx - min la lb))
        (Score.ofNat mx)) then Score.ofNat 0
    else if la > 500 || lb > 500 then
      let wordsA := (splitWs (a.map Char.toLower)).dedup
      let wordsB := (splitWs (b.map Char.toLower)).dedup
      let common := wordsA.countP (fun w => wordsB.contains w)
      Score.div (Score.ofNat (2 * common))
        (Score.ofNat (wordsA.length + wordsB.length))
    else Score.sub (Score.ofNat 1)
      (Score.div (Score.ofNat (editDistance a b)) (Score.ofNat mx))

/-- Tier-2 candidate score from `src/unnamed/part_000` (lines 180–194):
anchor score with weight 0.4, position bonus `1 - 0.1·w` with weight 0.3,
and the length bonus `lenRatio * 0.3` (active only above the 0.3 ratio
floor) with weight 0.3. -/
def candidateScore (normSource normTrans : List Char) (w : Nat) : Score :=
  let aScore := anchorScore normSource normTrans
  let positionBonus := Score.sub (Score.ofNat 1)
    (Score.mul (Score.ofNat w) ⟨1, 10⟩)
  let lenRatio := Score.div
    (Score.ofNat (min normSource.length normTrans.length))
    (Score.ofNat (max normSource.length normTrans.length))
  let lenBonus := if Score.lt ⟨3, 10⟩ lenRatio then Score.mul lenRatio ⟨3, 10⟩
                  else Score.ofNat 0
  Score.add (Score.add (Score.mul aScore ⟨4, 10⟩)
    (Score.mul positionBonus ⟨3, 10⟩)) (Score.mul lenBonus ⟨3, 10⟩)

/-- One window slot of the tier-2 look-ahead scan: skip a slot beyond
the end of the paragraph list or an already-consumed index, otherwise
keep the strictly better score. -/
def scanWindowStep (tps : List (List Char)) (used : List Nat)
    (normSource : List Char) (tIdx : Nat) (best : Option Nat × Score)
    (w : Nat) : Option Nat × Score :=
  let candidateIdx := tIdx + w
  if candidateIdx ≥ tps.length then best
  else if used.contains candidateIdx then best
  else
    let normTrans := normalize (tps.getD candidateIdx [])
    let totalScore := candidateScore normSource normTrans w
    if Score.lt best.2 totalScore then (some candidateIdx, totalScore)
    else best

/-- The tier-2 look-ahead window scan: best unconsumed candidate among at
most 5 forward slots, tracked as `(bestMatch, bestScore)` with strict
improvement, starting from `(none, 0)`. -/
def scanWindow (tps : List (List Char)) (used : List Nat)
    (normSource : List Char) (tIdx : Nat) : Option Nat × Score :=
  let windowSize := min 5 (tps.length - tIdx)
  (List.range windowSize).foldl (scanWindowStep tps used normSource tIdx)
    (none, Score.ofNat 0)

/-- State of the adaptive matcher while its tiers run.  `assigns` is an
instrumentation field: it records, for each `mapping.set(id, tps[k])`
performed by the code, the pair `(id, k)` — the consumed
translated-paragraph index, which the mapping itself (a string-valued
map) does not retain.  `unmatchedCnt` is `stats.unmatched`. -/
structure AdaptState where
  mapping : List (Nat × List Char)
  assigns : List (Nat × Nat)
  used : List Nat
  tIdx : Nat
  matched : Nat
  fuzzy : Nat
  unmatchedCnt : Nat
  unmatchedSegs : List Segment
deriving Repr, DecidableEq

/-- Initial adaptive-matcher state. -/
def initAdaptState : AdaptState :=
  { mapping := [], assigns := [], used := [], tIdx := 0,
    matched := 0, fuzzy := 0, unmatchedCnt := 0, unmatchedSegs := [] }

/-- Tier-2 positional fallback: take the very next unconsumed translated
paragraph (counted fuzzy), else defer the segment as unmatched. -/
def tier2Fallback (tps : List (List Char)) (st : AdaptState)
    (segment : Segment) : AdaptState :=
  if st.tIdx < tps.length && !(st.used.contains st.tIdx) then
    { st with mapping := mapSet st.mapping segment.id (tps.getD st.tIdx []),
              assigns := st.assigns ++ [(segment.id, st.tIdx)],
              used := st.used ++ [st.tIdx],
              tIdx := st.tIdx + 1,
              matched := st.matched + 1,
              fuzzy := st.fuzzy + 1 }
  else
    { st with unmatchedSegs := st.unmatchedSegs ++ [segment],
              unmatchedCnt := st.unmatchedCnt + 1 }

/-- One tier-2 loop iteration of the adaptive `matchTexts`
(`src/unnamed/part_000`, lines 167–222). -/
def tier2Step (tps : List (List Char)) (st : AdaptState)
    (segment : Segment) : AdaptState :=
  let normSource := normalize segment.text
  match scanWindow tps st.used normSource st.tIdx with
  | (some bestMatch, bestScore) =>
    if Score.lt ⟨2, 10⟩ bestScore then
      { st with mapping := mapSet st.mapping segment.id (tps.getD bestMatch []),
                assigns := st.assigns ++ [(segment.id, bestMatch)],
                used := st.used ++ [bestMatch],
                tIdx := bestMatch + 1,
                matched := st.matched + 1,
                fuzzy := if Score.lt bestScore ⟨6, 10⟩ then st.fuzzy + 1
                         else st.fuzzy }
    else tier2Fallback tps st segment
  | (none, _) => tier2Fallback tps st segment

/-- Tier 2 over all segments in order. -/
def tier2Run (segs : List Segment) (tps : List (List Char)) : AdaptState :=
  segs.foldl (tier2Step tps) initAdaptState

/-- Tier-3 best-candidate selection over the unused pool
(`0.5·anchor + 0.5·similarity` over 100-character normalized prefixes,
strict improvement, acceptance floor 0.3). -/
def tier3Best (segment : Segment) (pool : List (List Char × Nat)) :
    Option (List Char × Nat) × Score :=
  pool.foldl
    (fun best candidate =>
      let aScore := anchorScore segment.text candidate.1
      let simScore := similarity ((normalize segment.text).take 100)
                                 ((normalize candidate.1).take 100)
      let totalScore := Score.add (Score.mul aScore ⟨5, 10⟩)
        (Score.mul simScore ⟨5, 10⟩)
      if Score.lt best.2 totalScore ∧ Score.lt ⟨3, 10⟩ totalScore then
        (some candidate, totalScore)
      else best)
    (none, Score.ofNat 0)

/-- `unusedTranslations.splice(unusedTranslations.indexOf(bestMatch), 1)`:
remove the first occurrence of an element. -/
def removeFirst (pool : List (List Char × Nat)) (c : List Char × Nat) :
    List (List Char × Nat) :=
  match pool with
  | [] => []
  | x :: xs => if x = c then xs else x :: removeFirst xs c

/-- One tier-3 loop iteration (`src/unnamed/part_000`, lines 231–258):
the fold state carries the adaptive state (whose `unmatchedSegs` now
accumulates `stillUnmatched`) and the unused-translations pool. -/
def tier3Step (acc : AdaptState × List (List Char × Nat))
    (segment : Segment) : AdaptState × List (List Char × Nat) :=
  let st := acc.1
  let pool := acc.2
  match (tier3Best segment pool).1 with
  | some bestMatch =>
    ({ st with mapping := mapSet st.mapping segment.id bestMatch.1,
               assigns := st.assigns ++ [(segment.id, bestMatch.2)],
               matched := st.matched + 1,
               unmatchedCnt := st.unmatchedCnt - 1,
               fuzzy := st.fuzzy + 1 }, removeFirst pool bestMatch)
  | none =>
    ({ st with unmatchedSegs := st.unmatchedSegs ++ [segment] }, pool)

/-- Tier 3 (`src/unnamed/part_000`, lines 225–263): runs only when tier 2
left segments unmatched; the pool is the translated paragraphs whose
index tier 2 did not consume. -/
def tier3Run (tps : List (List Char)) (st2 : AdaptState) : AdaptState :=
  if st2.unmatchedSegs.length > 0 then
    let pool := (tps.enum.map (fun p => (p.2, p.1))).filter
      (fun c => !(st2.used.contains c.2))
    (st2.unmatchedSegs.foldl tier3Step ({ st2 with unmatchedSegs := [] }, pool)).1
  else st2

/-- Result of the adaptive `matchTexts` (`src/unnamed/part_000`),
including the `assigns` instrumentation trace. -/
structure AdaptResult where
  mapping : List (Nat × List Char)
  assigns : List (Nat × Nat)
  unmatched : List Segment
  stats : MatchStats
deriving Repr, DecidableEq

/-- The adaptive multi-tier `matchTexts` from `src/unnamed/part_000`:
tier 1 (equal counts → 1:1 by index), else tier 2 (sequential bounded
window) followed by tier 3 (residual anchor/similarity match). -/
def matchTextsAdaptive (sourceSegments : List Segment)
    (translationText : List Char) : AdaptResult :=
  let tps := splitIntoParagraphs translationText
  if sourceSegments.length = tps.length then
    let m := (sourceSegments.zip tps).enum.foldl
      (fun acc p => (mapSet acc.1 p.2.1.id p.2.2, acc.2 ++ [(p.2.1.id, p.1)]))
      ([], [])
    { mapping := m.1, assigns := m.2, unmatched := [],
      stats := { total := sourceSegments.length,
                 matched := sourceSegments.length, fuzzy := 0,
                 unmatched := 0, method := "structure-1:1".data } }
  else
    let st := tier3Run tps (tier2Run sourceSegments tps)
    { mapping := st.mapping, assigns := st.assigns,
      unmatched := st.unmatchedSegs,
      stats := { total := sourceSegments.length, matched := st.matched,
                 fuzzy := st.fuzzy, unmatched := st.unmatchedCnt,
                 method := "sequential-flex".data } }

/-- A formatting run: its ordered text nodes (`<w:t>` / `<a:t>`) and the
highlight marker in its run properties (`none` = no `highlight` element;
`some val` = a highlight element with the given value — `"red"` for
DOCX, `"FF0000"` for the PPTX color child).  Other run content (tabs,
breaks, styles) is never touched by the rewrite engine and is not
modelled. -/
structure Run where
  textNodes : List (List Char)
  highlight : Option (List Char)
deriving Repr, DecidableEq, Inhabited

/-- Flattened text of one run: concatenation of its text nodes. -/
def runText (r : Run) : List Char := r.textNodes.flatten

/-- Flattened text of a paragraph (`extractTextFromParagraph`). -/
def paraText (p : List Run) : List Char := (p.map runText).flatten

/-- Write `chunk` into a run the way the rebuilders do: first text node
gets the chunk, every later text node is cleared (not deleted); a run
with no text node is left alone (`textNodes.length >= 1` guard). -/
def setRunText (r : Run) (chunk : List Char) : Run :=
  match r.textNodes with
  | [] => r
  | _ :: rest => { r with textNodes := chunk :: rest.map (fun _ => []) }

/-- Distribute the chunk list over the paragraph's runs: the k-th run
that carries text receives the k-th chunk; runs without text are not
touched (the source iterates over `textRuns` only, mutating in place). -/
def assignChunks : List Run → List (List Char) → List Run
  | [], _ => []
  | r :: rs, [] => r :: assignChunks rs []
  | r :: rs, c :: cs =>
    if runText r ≠ [] then setRunText r c :: assignChunks rs cs
    else r :: assignChunks rs (c :: cs)

/-- Model of `newText.split(/(\s+)/)`: word and whitespace tokens
alternating, whitespace retained as separator tokens (JavaScript yields
empty word tokens at the boundaries, which are kept here as well). -/
def splitTokens (l : List Char) : List (List Char) :=
  match l with
  | [] => [[]]
  | c :: rest =>
    if isJsWs c then
      [] :: (c :: rest.takeWhile isJsWs) :: splitTokens (rest.dropWhile isJsWs)
    else
      match splitTokens rest with
      | [] => [[c]]
      | p :: ps => (c :: p) :: ps
termination_by l.length
decreasing_by
  · simpa using Nat.lt_succ_of_le (length_dropWhile_le _ _)
  · simp

/-- `Math.round` of the nonnegative rational `num / den`
(round half away from zero, i.e. half up): `⌊num/den + 1/2⌋`. -/
def jsRound (num den : Nat) : Nat := (2 * num + den) / (2 * den)

/-- The greedy token loop for one non-last run (`docxRebuilder.js` lines
196–209): add tokens until the target is reached, refusing an addition
that would overshoot a nonempty chunk beyond 1.3× the target.  The float
product `target * 1.3` is modelled exactly as `13 * target / 10`
(compared via cross-multiplication). -/
def takeChunkGo (target : Nat) (chunk : List Char) :
    List (List Char) → List Char × List (List Char)
  | [] => (chunk, [])
  | w :: ws =>
    if chunk.length > 0 && 10 * (chunk.length + w.length) > 13 * target then
      (chunk, w :: ws)
    else
      let chunk' := chunk ++ w
      if chunk'.length ≥ target then (chunk', ws)
      else takeChunkGo target chunk' ws

/-- Build the per-run chunks for the given proportional targets; the last
run absorbs all remaining tokens. -/
def buildChunks (tokens : List (List Char)) : List Nat → List (List Char)
  | [] => []
  | [_] => [tokens.flatten]
  | t :: ts =>
    let pr := takeChunkGo t [] tokens
    pr.1 :: buildChunks pr.2 ts

/-- `replaceParagraphText` — shared logic of `docxRebuilder.js`
(lines 139–222) and `pptxRebuilder.js` (lines 128–199), which are
identical at this level of abstraction: single text run → wholesale
replacement; several text runs → word-boundary-aware proportional
distribution. -/
def replaceParagraphText (p : List Run) (newText : List Char) : List Run :=
  if p.length = 0 then p
  else
    let textRuns := p.filter (fun r => runText r ≠ [])
    if textRuns.length = 0 then p
    else if textRuns.length = 1 then assignChunks p [newText]
    else
      let words := splitTokens newText
      let totalOriginalLen := (p.map (fun r => (runText r).length)).sum
      let targetLengths := textRuns.map
        (fun r => jsRound ((runText r).length * newText.length) totalOriginalLen)
      assignChunks p (buildChunks words targetLengths)

/-- `highlightParagraphRed` / `highlightPptxParagraphRed`: every run of
the paragraph gets the untranslated-highlight marker in its run
properties (an existing highlight element is removed first, so the net
effect per run is `highlight := some val`). -/
def highlightParagraphRed (p : List Run) (val : List Char) : List Run :=
  p.map (fun r => { r with highlight := some val })

/-- The per-file rewrite loop of `rebuildDocx` (lines 57–84) /
`rebuildPptx` (lines 49–82), restricted to one container's ordered
content paragraphs: paragraph `i` pairs with segment `i` up to
`min(count)`; a mapped segment's paragraph gets its text replaced, an
unmapped one is highlighted; paragraphs beyond the segment count are
left untouched. -/
def rebuildContentParas (contentParas : List (List Run))
    (fileSegments : List Segment) (mapping : List (Nat × List Char))
    (val : List Char) : List (List Run) :=
  let count := min contentParas.length fileSegments.length
  contentParas.enum.map
    (fun q =>
      if q.1 < count then
        match mapLookup mapping ((fileSegments.getD q.1 default).id) with
        | some t => replaceParagraphText q.2 t
        | none => highlightParagraphRed q.2 val
      else q.2)

/-! ## Conservation of the run-splitting text replacement -/

theorem splitTokens_flatten (l : List Char) : (splitTokens l).flatten = l := by
  induction l using splitTokens.induct with
  | case1 => simp [splitTokens]
  | case2 c rest h ih =>
    rw [splitTokens]
    simp only [if_pos h, List.flatten_cons, List.flatten_nil]
    rw [List.nil_append, List.cons_append, ih, List.takeWhile_append_dropWhile]
  | case3 c rest h hm ih =>
    rw [splitTokens]
    simp only [if_neg h]
    rw [hm] at ih
    simp only [hm, List.flatten_cons] at ih ⊢
    simp [ih]
  | case4 c rest h p ps hm ih =>
    rw [splitTokens]
    simp only [if_neg h]
    rw [hm] at ih
    simp only [hm, List.flatten_cons] at ih ⊢
    simpa using ih

theorem takeChunkGo_flatten (target : Nat) (chunk : List Char)
    (ws : List (List Char)) :
    (takeChunkGo target chunk ws).1 ++ (takeChunkGo target chunk ws).2.flatten
      = chunk ++ ws.flatten := by
  induction ws generalizing chunk with
  | nil => simp [takeChunkGo]
  | cons w ws ih =>
    rw [takeChunkGo]
    split
    · simp
    · dsimp only
      split
      · simp
      · rw [ih (chunk ++ w)]
        simp

theorem buildChunks_flatten (tokens : List (List Char)) (targets : List Nat)
    (h : targets ≠ []) :
    (buildChunks tokens targets).flatten = tokens.flatten := by
  induction targets generalizing tokens with
  | nil => exact absurd rfl h
  | cons t ts ih =>
    match ts with
    | [] => simp [buildChunks]
    | t' :: ts' =>
      rw [buildChunks]
      · simp only [List.flatten_cons]
        rw [ih _ (by simp)]
        exact takeChunkGo_flatten t [] tokens
      · simp

theorem buildChunks_length (tokens : List (List Char)) (targets : List Nat) :
    (buildChunks tokens targets).length = targets.length := by
  induction targets generalizing tokens with
  | nil => simp [buildChunks]
  | cons t ts ih =>
    match ts with
    | [] => simp [buildChunks]
    | t' :: ts' =>
      rw [buildChunks]
      · simp [ih]
      · simp

theorem paraText_cons (r : Run) (rs : List Run) :
    paraText (r :: rs) = runText r ++ paraText rs := by
  simp [paraText]

theorem runText_setRunText (r : Run) (c : List Char) (h : runText r ≠ []) :
    runText (setRunText r c) = c := by
  match hr : r.textNodes with
  | [] => exact absurd (by simp [runText, hr]) h
  | t :: rest =>
    simp only [setRunText, hr, runText]
    induction rest with
    | nil => simp
    | cons x xs ih => simpa using ih

theorem assignChunks_paraText (runs : List Run) (chunks : List (List Char))
    (h : (runs.filter (fun r => runText r ≠ [])).length = chunks.length) :
    paraText (assignChunks runs chunks) = chunks.flatten := by
  induction runs generalizing chunks with
  | nil =>
    simp only [List.filter_nil, List.length_nil] at h
    have hc : chunks = [] := by
      cases chunks with
      | nil => rfl
      | cons c cs => simp at h
    subst hc
    simp [assignChunks, paraText]
  | cons r rs ih =>
    by_cases hr : runText r ≠ []
    · rw [List.filter_cons_of_pos (by simpa using hr)] at h
      match chunks with
      | [] => simp at h
      | c :: cs =>
        rw [assignChunks]
        simp only [if_pos hr]
        have h' : (rs.filter (fun r => runText r ≠ [])).length = cs.length := by
          simp only [List.length_cons] at h
          omega
        rw [paraText_cons, runText_setRunText r c hr, ih cs h']
        simp
    · rw [List.filter_cons_of_neg (by simpa using hr)] at h
      simp only [ne_eq, not_not] at hr
      match chunks with
      | [] =>
        rw [assignChunks, paraText_cons, ih [] h]
        simp [hr]
      | c :: cs =>
        rw [assignChunks, if_neg (by simp [hr])]
        rw [paraText_cons, ih (c :: cs) h]
        simp [hr]

/-- **C1.** For every content unit with at least one run carrying
non-empty original text and every replacement text `T`, the flattened
text of the unit after `replaceParagraphText` equals exactly `T` —
wholesale placement for a single text run, token-conserving distribution
for several. -/
theorem claim_C1_replace_conserves_text (p : List Run) (T : List Char)
    (h : ∃ r ∈ p, runText r ≠ []) :
    paraText (replaceParagraphText p T) = T := by
  obtain ⟨r0, hr0mem, hr0⟩ := h
  have hp : p.length ≠ 0 := by
    cases p with
    | nil => cases hr0mem
    | cons a l => simp
  have hfil : r0 ∈ p.filter (fun r => runText r ≠ []) :=
    List.mem_filter.2 ⟨hr0mem, by simpa using hr0⟩
  have hflen : (p.filter (fun r => runText r ≠ [])).length ≠ 0 := by
    intro hz
    rw [List.length_eq_zero] at hz
    rw [hz] at hfil
    cases hfil
  rw [replaceParagraphText]
  simp only [if_neg hp, if_neg hflen]
  by_cases h1 : (p.filter (fun r => runText r ≠ [])).length = 1
  · simp only [if_pos h1]
    rw [assignChunks_paraText p [T] (by simpa using h1)]
    simp
  · simp only [if_neg h1]
    rw [assignChunks_paraText]
    · rw [buildChunks_flatten _ _ ?_, splitTokens_flatten]
      intro hnil
      rw [← List.length_eq_zero, List.length_map] at hnil
      exact hflen (by simpa using hnil)
    · rw [buildChunks_length, List.length_map]

/-- Witness for C1 at a concrete two-run paragraph. -/
theorem claim_C1_witness :
    (∃ r ∈ [Run.mk ["Hello ".data] none, Run.mk ["world and more".data] none],
        runText r ≠ []) ∧
      paraText (replaceParagraphText
        [Run.mk ["Hello ".data] none, Run.mk ["world and more".data] none]
        "Bonjour le monde entier".data) = "Bonjour le monde entier".data :=
  ⟨⟨Run.mk ["Hello ".data] none, by simp, by decide⟩,
    claim_C1_replace_conserves_text _ _
      ⟨Run.mk ["Hello ".data] none, by simp, by decide⟩⟩

/-! ## The untranslated-highlight flag (rewrite fallback) -/

theorem assignChunks_highlight (runs : List Run) (chunks : List (List Char)) :
    (assignChunks runs chunks).map Run.highlight = runs.map Run.highlight := by
  induction runs generalizing chunks with
  | nil => cases chunks <;> simp [assignChunks]
  | cons r rs ih =>
    cases chunks with
    | nil => simp [assignChunks, ih]
    | cons c cs =>
      rw [assignChunks]
      split
      · simp only [List.map_cons, ih]
        cases hr : r.textNodes <;> simp [setRunText, hr]
      · simp [ih]

theorem replaceParagraphText_highlight (p : List Run) (T : List Char) :
    (replaceParagraphText p T).map Run.highlight = p.map Run.highlight := by
  rw [replaceParagraphText]
  split
  · rfl
  · dsimp only
    split
    · rfl
    · split
      · exact assignChunks_highlight ..
      · exact assignChunks_highlight ..

/-- **C9 counterexample.**  A content unit whose single run already
carries the red highlight marker in the source document, and whose
segment *is* mapped, still carries the marker after rewrite: the claim
"matched units never carry it" fails.  (`mapLookup` returning `some`
shows the segment is matched; the text is replaced but the pre-existing
highlight survives.) -/
theorem claim_C9_counterexample :
    mapLookup [(0, "yo".data)] 0 = some "yo".data ∧
    rebuildContentParas [[Run.mk ["hi".data] (some "red".data)]]
        [Segment.mk 0 "hi".data] [(0, "yo".data)] "red".data
      = [[Run.mk ["yo".data] (some "red".data)]] := by decide

/-- **C9 (amended).**  After rewrite, every run of an unmatched content
unit (its segment has no Mapping entry) carries the untranslated
highlight marker; a matched unit's runs keep exactly the highlight state
they had before the rewrite — the rewrite never adds the marker to a
matched unit (so a matched unit free of the marker beforehand never
carries it afterwards). -/
theorem claim_C9_highlight_flag (contentParas : List (List Run))
    (segs : List Segment) (mapping : List (Nat × List Char))
    (val : List Char) (i : Nat)
    (hi : i < min contentParas.length segs.length) :
    (mapLookup mapping ((segs.getD i default).id) = none →
      ∀ r ∈ (rebuildContentParas contentParas segs mapping val).getD i [],
        r.highlight = some val) ∧
    (∀ t, mapLookup mapping ((segs.getD i default).id) = some t →
      ((rebuildContentParas contentParas segs mapping val).getD i []).map
          Run.highlight = (contentParas.getD i []).map Run.highlight) := by
  have hip : i < contentParas.length := lt_of_lt_of_le hi (Nat.min_le_left _ _)
  have hie : i < contentParas.enum.length := by simpa using hip
  have hgd : (rebuildContentParas contentParas segs mapping val).getD i []
      = (if i < min contentParas.length segs.length then
          match mapLookup mapping ((segs.getD i default).id) with
          | some t => replaceParagraphText (contentParas.getD i []) t
          | none => highlightParagraphRed (contentParas.getD i []) val
        else contentParas.getD i []) := by
    rw [rebuildContentParas]
    rw [List.getD_eq_getElem _ _ (by simpa using hie)]
    rw [List.getElem_map, List.getElem_enum]
    rw [List.getD_eq_getElem _ _ hip]
  rw [hgd, if_pos hi]
  constructor
  · intro hnone r hr
    rw [hnone] at hr
    simp only [highlightParagraphRed, List.mem_map] at hr
    obtain ⟨a, _, ha⟩ := hr
    rw [← ha]
  · intro t ht
    rw [ht]
    exact replaceParagraphText_highlight _ _

/-- Witness for C9 (amended): one matched and one unmatched unit. -/
theorem claim_C9_witness :
    (0 : Nat) < min 2 2 ∧ (1 : Nat) < min 2 2 ∧
    (mapLookup [(7, "yo".data)] 5 = none →
      ∀ r ∈ (rebuildContentParas
          [[Run.mk ["a".data] none], [Run.mk ["b".data] none]]
          [Segment.mk 5 "a".data, Segment.mk 7 "b".data]
          [(7, "yo".data)] "red".data).getD 0 [],
        r.highlight = some "red".data) ∧
    (∀ t, mapLookup [(7, "yo".data)] 7 = some t →
      ((rebuildContentParas
          [[Run.mk ["a".data] none], [Run.mk ["b".data] none]]
          [Segment.mk 5 "a".data, Segment.mk 7 "b".data]
          [(7, "yo".data)] "red".data).getD 1 []).map Run.highlight
        = ([[Run.mk ["a".data] none], [Run.mk ["b".data] none]].getD 1 []).map
            Run.highlight) :=
  ⟨by decide, by decide,
    (claim_C9_highlight_flag
      [[Run.mk ["a".data] none], [Run.mk ["b".data] none]]
      [Segment.mk 5 "a".data, Segment.mk 7 "b".data]
      [(7, "yo".data)] "red".data 0 (by decide)).1,
    (claim_C9_highlight_flag
      [[Run.mk ["a".data] none], [Run.mk ["b".data] none]]
      [Segment.mk 5 "a".data, Segment.mk 7 "b".data]
      [(7, "yo".data)] "red".data 1 (by decide)).2⟩

/-! ## Association-list lemmas for the JavaScript `Map` model -/

theorem mapSet_fresh (m : List (Nat × List Char)) (k : Nat) (v : List Char)
    (h : k ∉ m.map Prod.fst) : mapSet m k v = m ++ [(k, v)] := by
  rw [mapSet, if_neg]
  intro hc
  rw [List.any_eq_true] at hc
  obtain ⟨p, hpm, hpk⟩ := hc
  simp only [decide_eq_true_eq] at hpk
  exact h (List.mem_map.2 ⟨p, hpm, hpk⟩)

theorem foldl_mapSet_eq (ps : List (Segment × List Char))
    (m0 : List (Nat × List Char))
    (hd : (ps.map (fun q => q.1.id)).Nodup)
    (hdis : ∀ q ∈ ps, q.1.id ∉ m0.map Prod.fst) :
    ps.foldl (fun m q => mapSet m q.1.id q.2) m0
      = m0 ++ ps.map (fun q => (q.1.id, q.2)) := by
  induction ps generalizing m0 with
  | nil => simp
  | cons q qs ih =>
    simp only [List.foldl_cons]
    rw [List.map_cons, List.nodup_cons] at hd
    obtain ⟨hq, hqs⟩ := hd
    rw [mapSet_fresh _ _ _ (hdis q (by simp))]
    rw [ih]
    · simp
    · exact hqs
    · intro q' hq'
      simp only [List.map_append, List.mem_append]
      push_neg
      refine ⟨hdis q' (by simp [hq']), ?_⟩
      have hne : q'.1.id ≠ q.1.id := by
        intro he
        exact hq (he ▸ List.mem_map.2 ⟨q', hq', rfl⟩)
      simp [hne]

theorem foldl_mapSet_enum_eq (ps : List (Nat × Segment × List Char))
    (m0 : List (Nat × List Char)) (a0 : List (Nat × Nat))
    (hd : (ps.map (fun q => q.2.1.id)).Nodup)
    (hdis : ∀ q ∈ ps, q.2.1.id ∉ m0.map Prod.fst) :
    ps.foldl (fun acc p => (mapSet acc.1 p.2.1.id p.2.2,
        acc.2 ++ [(p.2.1.id, p.1)])) (m0, a0)
      = (m0 ++ ps.map (fun p => (p.2.1.id, p.2.2)),
         a0 ++ ps.map (fun p => (p.2.1.id, p.1))) := by
  induction ps generalizing m0 a0 with
  | nil => simp
  | cons q qs ih =>
    simp only [List.foldl_cons]
    rw [List.map_cons, List.nodup_cons] at hd
    obtain ⟨hq, hqs⟩ := hd
    rw [mapSet_fresh _ _ _ (hdis q (by simp))]
    rw [ih]
    · simp
    · exact hqs
    · intro q' hq'
      simp only [List.map_append, List.mem_append]
      push_neg
      refine ⟨hdis q' (by simp [hq']), ?_⟩
      have hne : q'.2.1.id ≠ q.2.1.id := by
        intro he
        exact hq (he ▸ List.mem_map.2 ⟨q', hq', rfl⟩)
      simp [hne]

theorem foldl_mapSet_if_eq (ps : List (Nat × Segment))
    (f : Nat × Segment → List Char) (m0 : List (Nat × List Char))
    (hd : (ps.map (fun q => q.2.id)).Nodup)
    (hdis : ∀ q ∈ ps, q.2.id ∉ m0.map Prod.fst) :
    ps.foldl (fun m p => mapSet m p.2.id (f p)) m0
      = m0 ++ ps.map (fun p => (p.2.id, f p)) := by
  induction ps generalizing m0 with
  | nil => simp
  | cons q qs ih =>
    simp only [List.foldl_cons]
    rw [List.map_cons, List.nodup_cons] at hd
    obtain ⟨hq, hqs⟩ := hd
    rw [mapSet_fresh _ _ _ (hdis q (by simp))]
    rw [ih]
    · simp
    · exact hqs
    · intro q' hq'
      simp only [List.map_append, List.mem_append]
      push_neg
      refine ⟨hdis q' (by simp [hq']), ?_⟩
      have hne : q'.2.id ≠ q.2.id := by
        intro he
        exact hq (he ▸ List.mem_map.2 ⟨q', hq', rfl⟩)
      simp [hne]

theorem mapLookup_of_nodup (l : List (Nat × List Char))
    (hd : (l.map Prod.fst).Nodup) (i : Nat) (hi : i < l.length) :
    mapLookup l (l[i].1) = some (l[i].2) := by
  induction l generalizing i with
  | nil => simp at hi
  | cons p ps ih =>
    rw [List.map_cons, List.nodup_cons] at hd
    obtain ⟨hp, hps⟩ := hd
    match i with
    | 0 => simp [mapLookup, List.find?_cons]
    | j + 1 =>
      have hj : j < ps.length := by simpa using hi
      have hne : ¬(p.1 = ps[j].1) := by
        intro he
        exact hp (he ▸ List.mem_map.2 ⟨ps[j], by simp, rfl⟩)
      have hrec := ih hps j hj
      simp only [List.getElem_cons_succ]
      rw [mapLookup] at hrec ⊢
      rw [List.find?_cons_of_neg _ (by simpa using hne)]
      exact hrec

theorem map_fst_zip_take (l1 : List Segment) (l2 : List (List Char)) :
    (l1.zip l2).map Prod.fst = l1.take l2.length := by
  induction l1 generalizing l2 with
  | nil => simp
  | cons a l ih =>
    cases l2 with
    | nil => simp
    | cons b m => simp [ih]

/-! ## Tier 1 — exact structural match (claim C2) -/

/-- **C2.**  When the number of non-empty trimmed translation lines
equals the number of segments (with the extraction invariant that
segment ids are distinct), both strategies return the in-order identity
mapping — segment `i` ↦ paragraph `i` — with `matched = total`,
`unmatched = 0`, method `structure-1:1`, and an empty unmatched list. -/
theorem claim_C2_tier1_identity (segs : List Segment) (T : List Char)
    (hlen : (splitIntoParagraphs T).length = segs.length)
    (hids : (segs.map Segment.id).Nodup) :
    ((matchTextsStrict segs T).mapping
        = (segs.zip (splitIntoParagraphs T)).map (fun q => (q.1.id, q.2)) ∧
      (matchTextsStrict segs T).unmatched = [] ∧
      (matchTextsStrict segs T).stats
        = ⟨segs.length, segs.length, 0, 0, "structure-1:1".data⟩) ∧
    ((matchTextsAdaptive segs T).mapping
        = (segs.zip (splitIntoParagraphs T)).map (fun q => (q.1.id, q.2)) ∧
      (matchTextsAdaptive segs T).unmatched = [] ∧
      (matchTextsAdaptive segs T).stats
        = ⟨segs.length, segs.length, 0, 0, "structure-1:1".data⟩) := by
  have hcond : segs.length = (splitIntoParagraphs T).length := hlen.symm
  have hkeys : ((segs.zip (splitIntoParagraphs T)).map (fun q => q.1.id))
      = segs.map Segment.id := by
    have h1 : (segs.zip (splitIntoParagraphs T)).map Prod.fst = segs :=
      List.map_fst_zip _ _ (le_of_eq hcond)
    calc (segs.zip (splitIntoParagraphs T)).map (fun q => q.1.id)
        = ((segs.zip (splitIntoParagraphs T)).map Prod.fst).map Segment.id := by
          rw [List.map_map]; rfl
      _ = segs.map Segment.id := by rw [h1]
  have henumkeys : ((segs.zip (splitIntoParagraphs T)).enum.map
      (fun q => q.2.1.id)) = segs.map Segment.id := by
    calc (segs.zip (splitIntoParagraphs T)).enum.map (fun q => q.2.1.id)
        = ((segs.zip (splitIntoParagraphs T)).enum.map Prod.snd).map
            (fun q => q.1.id) := by rw [List.map_map]; rfl
      _ = segs.map Segment.id := by rw [List.enum_map_snd, hkeys]
  refine ⟨⟨?_, ?_, ?_⟩, ⟨?_, ?_, ?_⟩⟩
  · rw [matchTextsStrict]
    simp only [if_pos hcond]
    rw [foldl_mapSet_eq _ [] (by rw [hkeys]; exact hids) (by simp)]
    simp
  · simp [matchTextsStrict, if_pos hcond]
  · simp [matchTextsStrict, if_pos hcond]
  · rw [matchTextsAdaptive]
    simp only [if_pos hcond]
    rw [foldl_mapSet_enum_eq _ [] [] (by rw [henumkeys]; exact hids) (by simp)]
    show [] ++ _ = _
    rw [List.nil_append]
    calc (segs.zip (splitIntoParagraphs T)).enum.map
          (fun p => (p.2.1.id, p.2.2))
        = ((segs.zip (splitIntoParagraphs T)).enum.map Prod.snd).map
            (fun q => (q.1.id, q.2)) := by rw [List.map_map]; rfl
      _ = _ := by rw [List.enum_map_snd]
  · simp [matchTextsAdaptive, if_pos hcond]
  · simp [matchTextsAdaptive, if_pos hcond]

/-- Witness for C2: the spec's own scenario. -/
theorem claim_C2_witness :
    ((splitIntoParagraphs "Bonjour le monde\nDeuxième ligne".data).length
      = [Segment.mk 0 "Hello world".data, Segment.mk 1 "Second line".data].length) ∧
    (([Segment.mk 0 "Hello world".data,
        Segment.mk 1 "Second line".data].map Segment.id).Nodup) ∧
    ((matchTextsStrict
        [Segment.mk 0 "Hello world".data, Segment.mk 1 "Second line".data]
        "Bonjour le monde\nDeuxième ligne".data).mapping
      = ([Segment.mk 0 "Hello world".data, Segment.mk 1 "Second line".data].zip
          (splitIntoParagraphs "Bonjour le monde\nDeuxième ligne".data)).map
            (fun q => (q.1.id, q.2)) ∧
      (matchTextsStrict
        [Segment.mk 0 "Hello world".data, Segment.mk 1 "Second line".data]
        "Bonjour le monde\nDeuxième ligne".data).unmatched = [] ∧
      (matchTextsStrict
        [Segment.mk 0 "Hello world".data, Segment.mk 1 "Second line".data]
        "Bonjour le monde\nDeuxième ligne".data).stats
        = ⟨2, 2, 0, 0, "structure-1:1".data⟩) :=
  ⟨by decide, by decide,
    (claim_C2_tier1_identity
      [Segment.mk 0 "Hello world".data, Segment.mk 1 "Second line".data]
      "Bonjour le monde\nDeuxième ligne".data (by decide) (by decide)).1⟩

/-! ## The strict positional strategy under count mismatch (claim C3) -/

/-- **C3.**  Strict strategy: with more segments than translation
paragraphs, the first `trgCount` segments map index-for-index and the
excess segments are returned unmatched (`matched = trgCount`,
`unmatched = srcCount - trgCount`); with more paragraphs than segments,
every segment but the last maps index-for-index, the last segment maps
to all overflow paragraphs joined by single spaces, and
`stats.fuzzy = trgCount - srcCount`. -/
theorem claim_C3_strict_positional (segs : List Segment) (T : List Char)
    (hids : (segs.map Segment.id).Nodup) :
    ((splitIntoParagraphs T).length < segs.length →
      (∀ i, i < (splitIntoParagraphs T).length →
        mapLookup (matchTextsStrict segs T).mapping (segs.getD i default).id
          = some ((splitIntoParagraphs T).getD i [])) ∧
      (matchTextsStrict segs T).unmatched
        = segs.drop (splitIntoParagraphs T).length ∧
      (matchTextsStrict segs T).stats.matched
        = (splitIntoParagraphs T).length ∧
      (matchTextsStrict segs T).stats.unmatched
        = segs.length - (splitIntoParagraphs T).length) ∧
    (segs.length < (splitIntoParagraphs T).length → 0 < segs.length →
      (∀ i, i < segs.length - 1 →
        mapLookup (matchTextsStrict segs T).mapping (segs.getD i default).id
          = some ((splitIntoParagraphs T).getD i [])) ∧
      mapLookup (matchTextsStrict segs T).mapping
          (segs.getD (segs.length - 1) default).id
        = some (joinSpace ((splitIntoParagraphs T).drop (segs.length - 1))) ∧
      (matchTextsStrict segs T).stats.fuzzy
        = (splitIntoParagraphs T).length - segs.length) := by
  set tps := splitIntoParagraphs T with htps
  constructor
  · intro hlt
    have hne : ¬(segs.length = tps.length) := by omega
    have hgt : segs.length > tps.length := hlt
    have hkeys : ((segs.zip tps).map (fun q => q.1.id)).Nodup := by
      have he : ((segs.zip tps).map (fun q => q.1.id))
          = (segs.map Segment.id).take tps.length := by
        calc (segs.zip tps).map (fun q => q.1.id)
            = ((segs.zip tps).map Prod.fst).map Segment.id := by
              rw [List.map_map]; rfl
          _ = (segs.take tps.length).map Segment.id := by rw [map_fst_zip_take]
          _ = (segs.map Segment.id).take tps.length := List.map_take _ _ _
      rw [he]
      exact (List.take_sublist _ _).nodup hids
    have hmap : (matchTextsStrict segs T).mapping
        = (segs.zip tps).map (fun q => (q.1.id, q.2)) := by
      rw [matchTextsStrict]
      simp only [← htps, if_neg hne, if_pos hgt]
      rw [foldl_mapSet_eq _ [] hkeys (by simp)]
      simp
    refine ⟨?_, ?_, ?_, ?_⟩
    · intro i hi
      have hiz : i < ((segs.zip tps).map (fun q => (q.1.id, q.2))).length := by
        simp only [List.length_map, List.length_zip]
        omega
      have hkd : (((segs.zip tps).map (fun q => (q.1.id, q.2))).map
          Prod.fst).Nodup := by
        rw [List.map_map]
        exact hkeys
      have hl := mapLookup_of_nodup _ hkd i hiz
      simp only [List.getElem_map, List.getElem_zip] at hl
      rw [hmap]
      rw [List.getD_eq_getElem segs default (by omega),
          List.getD_eq_getElem tps [] (by omega)]
      exact hl
    · rw [matchTextsStrict]
      simp only [← htps, if_neg hne, if_pos hgt]
    · rw [matchTextsStrict]
      simp only [← htps, if_neg hne, if_pos hgt]
    · rw [matchTextsStrict]
      simp only [← htps, if_neg hne, if_pos hgt]
  · intro hlt hpos
    have hne : ¬(segs.length = tps.length) := by omega
    have hngt : ¬(segs.length > tps.length) := by omega
    have hkeys : (segs.enum.map (fun q => q.2.id)).Nodup := by
      have he : segs.enum.map (fun q => q.2.id) = segs.map Segment.id := by
        calc segs.enum.map (fun q => q.2.id)
            = (segs.enum.map Prod.snd).map Segment.id := by
              rw [List.map_map]; rfl
          _ = segs.map Segment.id := by rw [List.enum_map_snd]
      rw [he]
      exact hids
    have hmap : (matchTextsStrict segs T).mapping
        = segs.enum.map (fun p => (p.2.id,
            if p.1 < segs.length - 1 then tps.getD p.1 []
            else joinSpace (tps.drop p.1))) := by
      rw [matchTextsStrict]
      simp only [← htps, if_neg hne, if_neg hngt]
      rw [foldl_mapSet_if_eq _ _ [] hkeys (by simp)]
      simp
    have hlook : ∀ i, i < segs.length →
        mapLookup (matchTextsStrict segs T).mapping (segs.getD i default).id
          = some (if i < segs.length - 1 then tps.getD i []
                  else joinSpace (tps.drop i)) := by
      intro i hi
      have hiz : i < (segs.enum.map (fun p => (p.2.id,
          if p.1 < segs.length - 1 then tps.getD p.1 []
          else joinSpace (tps.drop p.1)))).length := by
        simp only [List.length_map, List.enum_length]
        omega
      have hkd : ((segs.enum.map (fun p => (p.2.id,
          if p.1 < segs.length - 1 then tps.getD p.1 []
          else joinSpace (tps.drop p.1)))).map Prod.fst).Nodup := by
        rw [List.map_map]
        exact hkeys
      have hl := mapLookup_of_nodup _ hkd i hiz
      simp only [List.getElem_map, List.getElem_enum] at hl
      rw [hmap]
      rw [List.getD_eq_getElem segs default (by omega)]
      exact hl
    refine ⟨?_, ?_, ?_⟩
    · intro i hi
      have := hlook i (by omega)
      rwa [if_pos hi] at this
    · have := hlook (segs.length - 1) (by omega)
      rwa [if_neg (by omega)] at this
    · rw [matchTextsStrict]
      simp only [← htps, if_neg hne, if_neg hngt]

/-- Witness for C3: both mismatch directions at concrete inputs
(2 segments / 1 line, and the spec's 3 segments / 5 lines scenario). -/
theorem claim_C3_witness :
    ((matchTextsStrict [Segment.mk 0 "a".data, Segment.mk 1 "b".data]
        "x".data).unmatched
      = [Segment.mk 0 "a".data, Segment.mk 1 "b".data].drop
          (splitIntoParagraphs "x".data).length) ∧
    (mapLookup (matchTextsStrict [Segment.mk 0 "a".data, Segment.mk 1 "b".data,
          Segment.mk 2 "c".data] "l1\nl2\nl3\nl4\nl5".data).mapping
        ([Segment.mk 0 "a".data, Segment.mk 1 "b".data,
          Segment.mk 2 "c".data].getD 2 default).id
      = some (joinSpace
          ((splitIntoParagraphs "l1\nl2\nl3\nl4\nl5".data).drop 2)) ∧
      (matchTextsStrict [Segment.mk 0 "a".data, Segment.mk 1 "b".data,
          Segment.mk 2 "c".data] "l1\nl2\nl3\nl4\nl5".data).stats.fuzzy
        = (splitIntoParagraphs "l1\nl2\nl3\nl4\nl5".data).length - 3) :=
  ⟨((claim_C3_strict_positional
      [Segment.mk 0 "a".data, Segment.mk 1 "b".data] "x".data
      (by decide)).1 (by decide)).2.1,
   (((claim_C3_strict_positional [Segment.mk 0 "a".data, Segment.mk 1 "b".data,
        Segment.mk 2 "c".data] "l1\nl2\nl3\nl4\nl5".data
      (by decide)).2 (by decide) (by decide)).2.1),
   (((claim_C3_strict_positional [Segment.mk 0 "a".data, Segment.mk 1 "b".data,
        Segment.mk 2 "c".data] "l1\nl2\nl3\nl4\nl5".data
      (by decide)).2 (by decide) (by decide)).2.2)⟩

/-! ## Completeness of the stats (claim C4) -/

theorem tier2Fallback_cases (tps : List (List Char)) (st : AdaptState)
    (seg : Segment) :
    ((tier2Fallback tps st seg).matched = st.matched + 1
      ∧ (tier2Fallback tps st seg).unmatchedCnt = st.unmatchedCnt
      ∧ (tier2Fallback tps st seg).unmatchedSegs = st.unmatchedSegs)
    ∨ ((tier2Fallback tps st seg).matched = st.matched
      ∧ (tier2Fallback tps st seg).unmatchedCnt = st.unmatchedCnt + 1
      ∧ (tier2Fallback tps st seg).unmatchedSegs
          = st.unmatchedSegs ++ [seg]) := by
  rw [tier2Fallback]
  split
  · left; exact ⟨rfl, rfl, rfl⟩
  · right; exact ⟨rfl, rfl, rfl⟩

theorem tier2Step_cases (tps : List (List Char)) (st : AdaptState)
    (seg : Segment) :
    ((tier2Step tps st seg).matched = st.matched + 1
      ∧ (tier2Step tps st seg).unmatchedCnt = st.unmatchedCnt
      ∧ (tier2Step tps st seg).unmatchedSegs = st.unmatchedSegs)
    ∨ ((tier2Step tps st seg).matched = st.matched
      ∧ (tier2Step tps st seg).unmatchedCnt = st.unmatchedCnt + 1
      ∧ (tier2Step tps st seg).unmatchedSegs
          = st.unmatchedSegs ++ [seg]) := by
  rw [tier2Step]
  cases hsw : scanWindow tps st.used (normalize seg.text) st.tIdx with
  | mk o s =>
    cases o with
    | some c =>
      dsimp only
      by_cases h2 : Score.lt ⟨2, 10⟩ s
      · rw [if_pos h2]
        left
        exact ⟨rfl, rfl, rfl⟩
      · rw [if_neg h2]
        exact tier2Fallback_cases tps st seg
    | none =>
      dsimp only
      exact tier2Fallback_cases tps st seg

theorem tier2_fold_invariant (segs : List Segment) (tps : List (List Char))
    (st : AdaptState) (h : st.unmatchedCnt = st.unmatchedSegs.length) :
    (segs.foldl (tier2Step tps) st).matched
        + (segs.foldl (tier2Step tps) st).unmatchedCnt
      = st.matched + st.unmatchedCnt + segs.length
    ∧ (segs.foldl (tier2Step tps) st).unmatchedCnt
      = (segs.foldl (tier2Step tps) st).unmatchedSegs.length := by
  induction segs generalizing st with
  | nil => exact ⟨by simp, h⟩
  | cons seg rest ih =>
    simp only [List.foldl_cons, List.length_cons]
    rcases tier2Step_cases tps st seg with ⟨hm, hc, hs⟩ | ⟨hm, hc, hs⟩
    all_goals {
      obtain ⟨ih1, ih2⟩ := ih (tier2Step tps st seg)
        (by rw [hc, hs]; simp [h])
      refine ⟨?_, ih2⟩
      rw [ih1, hm, hc]
      omega
    }

theorem tier3Step_cases (acc : AdaptState × List (List Char × Nat))
    (seg : Segment) :
    ((tier3Step acc seg).1.matched = acc.1.matched + 1
      ∧ (tier3Step acc seg).1.unmatchedCnt = acc.1.unmatchedCnt - 1
      ∧ (tier3Step acc seg).1.unmatchedSegs = acc.1.unmatchedSegs)
    ∨ ((tier3Step acc seg).1.matched = acc.1.matched
      ∧ (tier3Step acc seg).1.unmatchedCnt = acc.1.unmatchedCnt
      ∧ (tier3Step acc seg).1.unmatchedSegs
          = acc.1.unmatchedSegs ++ [seg]) := by
  rw [tier3Step]
  cases (tier3Best seg acc.2).1 with
  | some c => left; exact ⟨rfl, rfl, rfl⟩
  | none => right; exact ⟨rfl, rfl, rfl⟩

theorem tier3_fold_invariant (l : List Segment)
    (acc : AdaptState × List (List Char × Nat))
    (h : acc.1.unmatchedCnt = l.length + acc.1.unmatchedSegs.length) :
    (l.foldl tier3Step acc).1.matched + (l.foldl tier3Step acc).1.unmatchedCnt
      = acc.1.matched + acc.1.unmatchedCnt
    ∧ (l.foldl tier3Step acc).1.unmatchedCnt
      = (l.foldl tier3Step acc).1.unmatchedSegs.length := by
  induction l generalizing acc with
  | nil => exact ⟨rfl, by simpa using h⟩
  | cons seg rest ih =>
    simp only [List.foldl_cons, List.length_cons] at h ⊢
    rcases tier3Step_cases acc seg with ⟨hm, hc, hs⟩ | ⟨hm, hc, hs⟩
    · obtain ⟨ih1, ih2⟩ := ih (tier3Step acc seg) (by rw [hc, hs]; omega)
      refine ⟨?_, ih2⟩
      rw [ih1, hm, hc]
      omega
    · obtain ⟨ih1, ih2⟩ := ih (tier3Step acc seg)
        (by rw [hc, hs]; simp; omega)
      refine ⟨?_, ih2⟩
      rw [ih1, hm, hc]

theorem tier3Run_counts (tps : List (List Char)) (st2 : AdaptState)
    (h : st2.unmatchedCnt = st2.unmatchedSegs.length) :
    (tier3Run tps st2).matched + (tier3Run tps st2).unmatchedCnt
      = st2.matched + st2.unmatchedCnt := by
  rw [tier3Run]
  split
  · exact (tier3_fold_invariant st2.unmatchedSegs _ (by simpa using h)).1
  · rfl

/-- **C4.**  For every input and both strategies,
`stats.matched + stats.unmatched = stats.total` and `stats.total` is the
number of input segments — including after the tier-3 residual pass of
the adaptive matcher. -/
theorem claim_C4_completeness (segs : List Segment) (T : List Char) :
    ((matchTextsStrict segs T).stats.matched
        + (matchTextsStrict segs T).stats.unmatched
          = (matchTextsStrict segs T).stats.total
      ∧ (matchTextsStrict segs T).stats.total = segs.length)
    ∧ ((matchTextsAdaptive segs T).stats.matched
        + (matchTextsAdaptive segs T).stats.unmatched
          = (matchTextsAdaptive segs T).stats.total
      ∧ (matchTextsAdaptive segs T).stats.total = segs.length) := by
  constructor
  · rw [matchTextsStrict]
    split
    · exact ⟨by simp, rfl⟩
    · next hne =>
      split
      · next hgt =>
        refine ⟨?_, rfl⟩
        dsimp only
        omega
      · exact ⟨by simp, rfl⟩
  · rw [matchTextsAdaptive]
    split
    · exact ⟨by simp, rfl⟩
    · refine ⟨?_, rfl⟩
      have h2 := tier2_fold_invariant segs (splitIntoParagraphs T)
        initAdaptState rfl
      have h3 := tier3Run_counts (splitIntoParagraphs T)
        (tier2Run segs (splitIntoParagraphs T)) h2.2
      simp only [tier2Run] at h3 ⊢
      rw [h3, h2.1]
      simp [initAdaptState]

/-! ## Order preservation and no-double-use in tiers 2–3 (claims C5, C6) -/

theorem scanWindowStep_inv (tps : List (List Char)) (used : List Nat)
    (ns : List Char) (tIdx : Nat) (acc : Option Nat × Score) (w : Nat)
    (hacc : ∀ c, acc.1 = some c →
      tIdx ≤ c ∧ c < tps.length ∧ used.contains c = false) :
    ∀ c, (scanWindowStep tps used ns tIdx acc w).1 = some c →
      tIdx ≤ c ∧ c < tps.length ∧ used.contains c = false := by
  intro c hc
  rw [scanWindowStep] at hc
  dsimp only at hc
  split at hc
  · exact hacc c hc
  · split at hc
    · exact hacc c hc
    · split at hc
      · next hge hused _ =>
        cases hc
        refine ⟨Nat.le_add_right _ _, by omega, ?_⟩
        simpa using hused
      · exact hacc c hc

theorem scanWindow_some (tps : List (List Char)) (used : List Nat)
    (ns : List Char) (tIdx : Nat) (c : Nat) (s : Score)
    (h : scanWindow tps used ns tIdx = (some c, s)) :
    tIdx ≤ c ∧ c < tps.length ∧ used.contains c = false := by
  rw [scanWindow] at h
  have haux : ∀ (ws : List Nat) (acc : Option Nat × Score),
      (∀ c, acc.1 = some c →
        tIdx ≤ c ∧ c < tps.length ∧ used.contains c = false) →
      ∀ c, (ws.foldl (scanWindowStep tps used ns tIdx) acc).1 = some c →
        tIdx ≤ c ∧ c < tps.length ∧ used.contains c = false := by
    intro ws
    induction ws with
    | nil => intro acc hacc; exact hacc
    | cons w ws ih =>
      intro acc hacc
      simp only [List.foldl_cons]
      exact ih _ (scanWindowStep_inv tps used ns tIdx acc w hacc)
  exact haux _ (none, Score.ofNat 0) (by simp) c (by rw [h])

theorem tier2Step_order (tps : List (List Char)) (st : AdaptState)
    (seg : Segment)
    (hb : ∀ a ∈ st.assigns, a.2 < st.tIdx)
    (hnd : List.Pairwise (· < ·) (st.assigns.map Prod.snd))
    (hused : ∀ i ∈ st.assigns.map Prod.snd, st.used.contains i = true) :
    (∀ a ∈ (tier2Step tps st seg).assigns, a.2 < (tier2Step tps st seg).tIdx)
    ∧ List.Pairwise (· < ·) ((tier2Step tps st seg).assigns.map Prod.snd)
    ∧ (∀ i ∈ (tier2Step tps st seg).assigns.map Prod.snd,
        (tier2Step tps st seg).used.contains i = true) := by
  rw [tier2Step]
  cases hsw : scanWindow tps st.used (normalize seg.text) st.tIdx with
  | mk o s =>
    cases o with
    | some c =>
      dsimp only
      split
      · have hsc := scanWindow_some tps st.used (normalize seg.text)
          st.tIdx c s hsw
        dsimp only
        refine ⟨?_, ?_, ?_⟩
        · intro a ha
          simp only [List.mem_append, List.mem_singleton] at ha
          rcases ha with ha | ha
          · have := hb a ha
            omega
          · rw [ha]
            omega
        · rw [List.map_append, List.pairwise_append]
          refine ⟨hnd, by simp, ?_⟩
          intro x hx y hy
          simp only [List.map_cons, List.map_nil, List.mem_singleton] at hy
          subst hy
          simp only [List.mem_map] at hx
          obtain ⟨a, ha, rfl⟩ := hx
          have := hb a ha
          omega
        · intro i hi
          simp only [List.map_append, List.mem_append] at hi
          rcases hi with hi | hi
          · have := hused i hi
            rw [List.elem_iff] at this ⊢
            simp [this]
          · simp only [List.map_cons, List.map_nil, List.mem_singleton] at hi
            subst hi
            rw [List.elem_iff]
            simp
      · -- fallback
        rw [tier2Fallback]
        split
        · dsimp only
          refine ⟨?_, ?_, ?_⟩
          · intro a ha
            simp only [List.mem_append, List.mem_singleton] at ha
            rcases ha with ha | ha
            · have := hb a ha
              omega
            · rw [ha]
              omega
          · rw [List.map_append, List.pairwise_append]
            refine ⟨hnd, by simp, ?_⟩
            intro x hx y hy
            simp only [List.map_cons, List.map_nil, List.mem_singleton] at hy
            subst hy
            simp only [List.mem_map] at hx
            obtain ⟨a, ha, rfl⟩ := hx
            exact hb a ha
          · intro i hi
            simp only [List.map_append, List.mem_append] at hi
            rcases hi with hi | hi
            · have := hused i hi
              rw [List.elem_iff] at this ⊢
              simp [this]
            · simp only [List.map_cons, List.map_nil, List.mem_singleton] at hi
              subst hi
              rw [List.elem_iff]
              simp
        · exact ⟨hb, hnd, hused⟩
    | none =>
      dsimp only
      rw [tier2Fallback]
      split
      · dsimp only
        refine ⟨?_, ?_, ?_⟩
        · intro a ha
          simp only [List.mem_append, List.mem_singleton] at ha
          rcases ha with ha | ha
          · have := hb a ha
            omega
          · rw [ha]
            omega
        · rw [List.map_append, List.pairwise_append]
          refine ⟨hnd, by simp, ?_⟩
          intro x hx y hy
          simp only [List.map_cons, List.map_nil, List.mem_singleton] at hy
          subst hy
          simp only [List.mem_map] at hx
          obtain ⟨a, ha, rfl⟩ := hx
          exact hb a ha
        · intro i hi
          simp only [List.map_append, List.mem_append] at hi
          rcases hi with hi | hi
          · have := hused i hi
            rw [List.elem_iff] at this ⊢
            simp [this]
          · simp only [List.map_cons, List.map_nil, List.mem_singleton] at hi
            subst hi
            rw [List.elem_iff]
            simp
      · exact ⟨hb, hnd, hused⟩

theorem tier2_fold_order (segs : List Segment) (tps : List (List Char))
    (st : AdaptState)
    (hb : ∀ a ∈ st.assigns, a.2 < st.tIdx)
    (hnd : List.Pairwise (· < ·) (st.assigns.map Prod.snd))
    (hused : ∀ i ∈ st.assigns.map Prod.snd, st.used.contains i = true) :
    (∀ a ∈ (segs.foldl (tier2Step tps) st).assigns,
        a.2 < (segs.foldl (tier2Step tps) st).tIdx)
    ∧ List.Pairwise (· < ·)
        ((segs.foldl (tier2Step tps) st).assigns.map Prod.snd)
    ∧ (∀ i ∈ (segs.foldl (tier2Step tps) st).assigns.map Prod.snd,
        (segs.foldl (tier2Step tps) st).used.contains i = true) := by
  induction segs generalizing st with
  | nil => exact ⟨hb, hnd, hused⟩
  | cons seg rest ih =>
    simp only [List.foldl_cons]
    obtain ⟨h1, h2, h3⟩ := tier2Step_order tps st seg hb hnd hused
    exact ih _ h1 h2 h3

/-- **C5 (amended).**  Within the sequential Tier 2 of the adaptive
matcher, the consumed translated-paragraph indices are strictly
increasing over the matched segments in segment order.  (The original
claim over the whole matcher fails: Tier 3 may hand an earlier unused
paragraph to a later segment — see the counterexample.) -/
theorem claim_C5_amended_tier2_order (segs : List Segment)
    (tps : List (List Char)) :
    List.Pairwise (· < ·) ((tier2Run segs tps).assigns.map Prod.snd) :=
  (tier2_fold_order segs tps initAdaptState (by simp [initAdaptState])
    (by simp [initAdaptState]) (by simp [initAdaptState])).2.1

set_option maxRecDepth 100000 in
/-- **C5 counterexample.**  On this input the first segment is matched by
the Tier-2 window to paragraph 2 (shared anchor `4711`), translations are
then exhausted, and Tier 3 maps the second segment to the still-unused
paragraph 0: the consumed-index sequence in segment order is `[2, 0]`,
which is not non-decreasing. -/
theorem claim_C5_counterexample :
    (matchTextsAdaptive
        [Segment.mk 0 "Order 4711 now".data,
         Segment.mk 1 "Alpha beta gamma".data]
        "Alpha beta gamma\nZzz qqq\nOrder 4711 now".data).assigns
      = [(0, 2), (1, 0)]
    ∧ ¬ List.Pairwise (· ≤ ·) ((matchTextsAdaptive
        [Segment.mk 0 "Order 4711 now".data,
         Segment.mk 1 "Alpha beta gamma".data]
        "Alpha beta gamma\nZzz qqq\nOrder 4711 now".data).assigns.map
          Prod.snd) := by
  constructor
  · decide
  · intro h
    have h2 : (matchTextsAdaptive
        [Segment.mk 0 "Order 4711 now".data,
         Segment.mk 1 "Alpha beta gamma".data]
        "Alpha beta gamma\nZzz qqq\nOrder 4711 now".data).assigns
        = [(0, 2), (1, 0)] := by decide
    rw [h2] at h
    simp at h

theorem foldl_mapSet_enum_snd (ps : List (Nat × Segment × List Char))
    (m0 : List (Nat × List Char)) (a0 : List (Nat × Nat)) :
    (ps.foldl (fun acc p => (mapSet acc.1 p.2.1.id p.2.2,
        acc.2 ++ [(p.2.1.id, p.1)])) (m0, a0)).2
      = a0 ++ ps.map (fun p => (p.2.1.id, p.1)) := by
  induction ps generalizing m0 a0 with
  | nil => simp
  | cons q qs ih =>
    simp only [List.foldl_cons, ih]
    simp

theorem tier3Best_mem (seg : Segment) (pool : List (List Char × Nat)) :
    ∀ c, (tier3Best seg pool).1 = some c → c ∈ pool := by
  rw [tier3Best]
  have haux : ∀ (l : List (List Char × Nat))
      (acc : Option (List Char × Nat) × Score),
      ∀ c, ((l.foldl
        (fun best candidate =>
          let aScore := anchorScore seg.text candidate.1
          let simScore := similarity ((normalize seg.text).take 100)
                                     ((normalize candidate.1).take 100)
          let totalScore := Score.add (Score.mul aScore ⟨5, 10⟩)
            (Score.mul simScore ⟨5, 10⟩)
          if Score.lt best.2 totalScore ∧ Score.lt ⟨3, 10⟩ totalScore then
            (some candidate, totalScore)
          else best) acc).1 = some c) → acc.1 = some c ∨ c ∈ l := by
    intro l
    induction l with
    | nil => intro acc c hc; exact Or.inl hc
    | cons x xs ih =>
      intro acc c hc
      simp only [List.foldl_cons] at hc
      rcases ih _ c hc with h | h
      · split at h
        · cases h
          exact Or.inr (by simp)
        · exact Or.inl h
      · exact Or.inr (by simp [h])
  intro c hc
  rcases haux _ (none, Score.ofNat 0) c hc with h | h
  · cases h
  · exact h

theorem removeFirst_sublist (pool : List (List Char × Nat))
    (c : List Char × Nat) : (removeFirst pool c).Sublist pool := by
  induction pool with
  | nil => simp [removeFirst]
  | cons x xs ih =>
    rw [removeFirst]
    split
    · exact List.sublist_cons_self x xs
    · exact ih.cons₂ x

theorem removeFirst_idx_not_mem (pool : List (List Char × Nat))
    (c : List Char × Nat) (hnd : (pool.map Prod.snd).Nodup) (hmem : c ∈ pool) :
    c.2 ∉ (removeFirst pool c).map Prod.snd := by
  induction pool with
  | nil => cases hmem
  | cons x xs ih =>
    rw [List.map_cons, List.nodup_cons] at hnd
    obtain ⟨hx, hxs⟩ := hnd
    rw [removeFirst]
    split
    · next he =>
      subst he
      exact hx
    · next hne =>
      have hmem' : c ∈ xs := by
        rcases List.mem_cons.1 hmem with h | h
        · exact absurd h.symm hne
        · exact h
      intro hc
      rw [List.map_cons, List.mem_cons] at hc
      rcases hc with hc | hc
      · exact hx (hc ▸ List.mem_map.2 ⟨c, hmem', rfl⟩)
      · exact ih hxs hmem' hc

theorem tier3Step_some (acc : AdaptState × List (List Char × Nat))
    (seg : Segment) (c : List Char × Nat)
    (hb : (tier3Best seg acc.2).1 = some c) :
    tier3Step acc seg
      = ({ acc.1 with
           mapping := mapSet acc.1.mapping seg.id c.1,
           assigns := acc.1.assigns ++ [(seg.id, c.2)],
           matched := acc.1.matched + 1,
           unmatchedCnt := acc.1.unmatchedCnt - 1,
           fuzzy := acc.1.fuzzy + 1 }, removeFirst acc.2 c) := by
  rw [tier3Step]
  dsimp only
  rw [hb]

theorem tier3Step_none (acc : AdaptState × List (List Char × Nat))
    (seg : Segment) (hb : (tier3Best seg acc.2).1 = none) :
    tier3Step acc seg
      = ({ acc.1 with
           unmatchedSegs := acc.1.unmatchedSegs ++ [seg] }, acc.2) := by
  rw [tier3Step]
  dsimp only
  rw [hb]

theorem tier3_fold_nodup (l : List Segment)
    (acc : AdaptState × List (List Char × Nat))
    (h1 : (acc.1.assigns.map Prod.snd).Nodup)
    (h2 : (acc.2.map Prod.snd).Nodup)
    (h3 : ∀ i ∈ acc.2.map Prod.snd, i ∉ acc.1.assigns.map Prod.snd) :
    ((l.foldl tier3Step acc).1.assigns.map Prod.snd).Nodup := by
  induction l generalizing acc with
  | nil => exact h1
  | cons seg rest ih =>
    simp only [List.foldl_cons]
    rcases hb : (tier3Best seg acc.2).1 with _ | c
    · rw [tier3Step_none acc seg hb]
      exact ih _ h1 h2 h3
    · have hcmem := tier3Best_mem seg acc.2 c hb
      rw [tier3Step_some acc seg c hb]
      apply ih
      · dsimp only
        rw [List.map_append]
        rw [List.nodup_append]
        refine ⟨h1, by simp, ?_⟩
        intro x hx
        simp only [List.map_cons, List.map_nil, List.mem_singleton]
        intro he
        subst he
        exact (h3 c.2 (List.mem_map.2 ⟨c, hcmem, rfl⟩)) hx
      · dsimp only
        exact ((removeFirst_sublist acc.2 c).map Prod.snd).nodup h2
      · dsimp only
        intro i hi
        rw [List.map_append, List.mem_append]
        push_neg
        constructor
        · exact h3 i (((removeFirst_sublist acc.2 c).map Prod.snd).mem hi)
        · simp only [List.map_cons, List.map_nil, List.mem_singleton]
          intro he
          subst he
          exact (removeFirst_idx_not_mem acc.2 c h2 hcmem) hi

/-- **C6.**  No two distinct segments are ever mapped through the same
translated-paragraph instance: over all tiers of the adaptive matcher,
the consumed translated-paragraph indices recorded in the assignment
trace are pairwise distinct. -/
theorem claim_C6_no_double_use (segs : List Segment) (T : List Char) :
    ((matchTextsAdaptive segs T).assigns.map Prod.snd).Nodup := by
  rw [matchTextsAdaptive]
  split
  · dsimp only
    rw [foldl_mapSet_enum_snd, List.nil_append]
    have he : ((segs.zip (splitIntoParagraphs T)).enum.map
        (fun p => (p.2.1.id, p.1))).map Prod.snd
        = (segs.zip (splitIntoParagraphs T)).enum.map Prod.fst := by
      rw [List.map_map]
      rfl
    rw [he, List.enum_map_fst]
    exact List.nodup_range _
  · dsimp only
    have ht2 := tier2_fold_order segs (splitIntoParagraphs T) initAdaptState
      (by simp [initAdaptState]) (by simp [initAdaptState])
      (by simp [initAdaptState])
    have hnd2 : (((tier2Run segs (splitIntoParagraphs T)).assigns.map
        Prod.snd)).Nodup := by
      rw [tier2Run]
      exact ht2.2.1.imp (fun h => Nat.ne_of_lt h)
    rw [tier3Run]
    split
    · apply tier3_fold_nodup
      · exact hnd2
      · dsimp only
        have hsub : ((((splitIntoParagraphs T).enum.map
            (fun p => (p.2, p.1))).filter
              (fun c => !((tier2Run segs (splitIntoParagraphs T)).used.contains
                c.2))).map Prod.snd).Sublist
            ((((splitIntoParagraphs T).enum.map
              (fun p => (p.2, p.1)))).map Prod.snd) :=
          (List.filter_sublist _).map Prod.snd
        refine hsub.nodup ?_
        have he2 : (((splitIntoParagraphs T).enum.map
            (fun p => (p.2, p.1))).map Prod.snd)
            = (splitIntoParagraphs T).enum.map Prod.fst := by
          rw [List.map_map]
          rfl
        rw [he2, List.enum_map_fst]
        exact List.nodup_range _
      · dsimp only
        intro i hi
        rw [List.mem_map] at hi
        obtain ⟨cc, hcc, rfl⟩ := hi
        rw [List.mem_filter] at hcc
        obtain ⟨hcmem, hcpred⟩ := hcc
        intro hin
        have hused : (tier2Run segs (splitIntoParagraphs T)).used.contains cc.2
            = true := ht2.2.2 cc.2 hin
        simp only [Bool.not_eq_true'] at hcpred
        rw [hcpred] at hused
        cases hused
    · exact hnd2

/-! ## The tier-2 candidate score formula (claim C7) -/

theorem anchorScore_den_pos (s t : List Char) : 0 < (anchorScore s t).den := by
  rw [anchorScore]
  split
  · exact Score.ofNat_den_pos 0
  · exact Score.div_den_pos (Score.ofNat_den_pos _)

/-- The tier-2 score formula exactly as claim C7 states it: the
length-ratio bonus equals the ratio itself (above the 0.3 floor) and is
then weighted by 0.3. -/
def claimedCandidateScore (ns nt : List Char) (w : Nat) : ℚ :=
  let r : ℚ := (min ns.length nt.length : ℚ) / (max ns.length nt.length : ℚ)
  (anchorScore ns nt).toRat * 0.4 + (1 - (w : ℚ) * 0.1) * 0.3 +
    (if r > 0.3 then r else 0) * 0.3

/-- The amended tier-2 score formula: the code weights the length-ratio
bonus by 0.3 twice — the bonus is `r * 0.3` (active above the 0.3 ratio
floor) and the sum weights it by 0.3 again, so the ratio's effective
weight is 0.09. -/
def amendedCandidateScore (ns nt : List Char) (w : Nat) : ℚ :=
  let r : ℚ := (min ns.length nt.length : ℚ) / (max ns.length nt.length : ℚ)
  (anchorScore ns nt).toRat * 0.4 + (1 - (w : ℚ) * 0.1) * 0.3 +
    (if r > 0.3 then r * 0.3 else 0) * 0.3

/-- **C7 counterexample.**  At normalized strings `"aaaa"` vs `"aaaa"`
and window slot 0 the claimed formula gives 0.6 (no anchors, position
bonus 0.3, ratio 1 with claimed weight 0.3) but the code computes 0.39
(the ratio term is `1 * 0.3 * 0.3 = 0.09`): the claimed score equation
is false. -/
theorem claim_C7_counterexample :
    claimedCandidateScore "aaaa".data "aaaa".data 0 = 3 / 5 ∧
    (candidateScore "aaaa".data "aaaa".data 0).toRat = 39 / 100 ∧
    ((3 : ℚ) / 5) ≠ 39 / 100 := by
  have hA : anchorScore "aaaa".data "aaaa".data = Score.ofNat 0 := by decide
  have hl : "aaaa".data.length = 4 := by decide
  refine ⟨?_, ?_, by norm_num⟩
  · rw [claimedCandidateScore]
    dsimp only
    rw [hA, Score.toRat_ofNat, hl]
    norm_num
  · have hc : candidateScore "aaaa".data "aaaa".data 0
        = ⟨156000, 400000⟩ := by decide
    rw [hc, Score.toRat]
    norm_num

/-- **C7 (amended).**  Every tier-2 window candidate's score equals
anchor-overlap × 0.4, plus the position bonus `(1 − 0.1·w) × 0.3`, plus
the length-ratio bonus — `ratio × 0.3`, active only above the 0.3
floor — weighted by a further 0.3 (effective ratio weight 0.09); and
the best-scoring unconsumed candidate is accepted exactly when its
score exceeds 0.2, counted fuzzy when the score is below 0.6. -/
theorem claim_C7_amended_score (ns nt : List Char) (w : Nat)
    (tps : List (List Char)) (st : AdaptState) (seg : Segment)
    (c : Nat) (s : Score)
    (hsw : scanWindow tps st.used (normalize seg.text) st.tIdx = (some c, s))
    (hacc : Score.lt ⟨2, 10⟩ s) :
    ((candidateScore ns nt w).toRat = amendedCandidateScore ns nt w) ∧
    (tier2Step tps st seg).assigns = st.assigns ++ [(seg.id, c)] ∧
    (tier2Step tps st seg).fuzzy
      = (if Score.lt s ⟨6, 10⟩ then st.fuzzy + 1 else st.fuzzy) := by
  refine ⟨?_, ?_⟩
  · simp only [candidateScore, amendedCandidateScore]
    have hA := anchorScore_den_pos ns nt
    have hP : (0 : Int) < (Score.sub (Score.ofNat 1)
        (Score.mul (Score.ofNat w) ⟨1, 10⟩)).den :=
      Score.sub_den_pos (Score.ofNat_den_pos 1)
        (Score.mul_den_pos (Score.ofNat_den_pos w) (by norm_num))
    have hL : (0 : Int) < (Score.div
        (Score.ofNat (min ns.length nt.length))
        (Score.ofNat (max ns.length nt.length))).den :=
      Score.div_den_pos (Score.ofNat_den_pos _)
    have hLv : (Score.div (Score.ofNat (min ns.length nt.length))
        (Score.ofNat (max ns.length nt.length))).toRat
        = (min ns.length nt.length : ℚ) / (max ns.length nt.length : ℚ) := by
      rw [Score.toRat_div, Score.toRat_ofNat, Score.toRat_ofNat]
      push_cast
      rfl
    have hB : (0 : Int) < (if Score.lt ⟨3, 10⟩
        (Score.div (Score.ofNat (min ns.length nt.length))
          (Score.ofNat (max ns.length nt.length))) then
        Score.mul (Score.div (Score.ofNat (min ns.length nt.length))
          (Score.ofNat (max ns.length nt.length))) ⟨3, 10⟩
      else Score.ofNat 0).den := by
      split
      · exact Score.mul_den_pos hL (by norm_num)
      · exact Score.ofNat_den_pos 0
    rw [Score.toRat_add _ _
      (Score.add_den_pos (Score.mul_den_pos hA (by norm_num))
        (Score.mul_den_pos hP (by norm_num)))
      (Score.mul_den_pos hB (by norm_num))]
    rw [Score.toRat_add _ _ (Score.mul_den_pos hA (by norm_num))
      (Score.mul_den_pos hP (by norm_num))]
    rw [Score.toRat_mul, Score.toRat_mul, Score.toRat_mul]
    rw [Score.toRat_sub _ _ (Score.ofNat_den_pos 1)
      (Score.mul_den_pos (Score.ofNat_den_pos w) (by norm_num))]
    rw [Score.toRat_mul, Score.toRat_ofNat, Score.toRat_ofNat]
    have hcond : Score.lt ⟨3, 10⟩
        (Score.div (Score.ofNat (min ns.length nt.length))
          (Score.ofNat (max ns.length nt.length)))
        ↔ ((min ns.length nt.length : ℚ) /
            (max ns.length nt.length : ℚ)) > (3 : ℚ) / 10 := by
      rw [Score.lt_iff _ _ (by norm_num) hL, hLv]
      constructor
      · intro h
        calc (3 : ℚ) / 10 = Score.toRat ⟨3, 10⟩ := by norm_num [Score.toRat]
          _ < _ := h
      · intro h
        calc Score.toRat ⟨3, 10⟩ = (3 : ℚ) / 10 := by norm_num [Score.toRat]
          _ < _ := h
    by_cases hlt : Score.lt ⟨3, 10⟩
        (Score.div (Score.ofNat (min ns.length nt.length))
          (Score.ofNat (max ns.length nt.length)))
    · have hgt : ((min ns.length nt.length : ℚ) /
          (max ns.length nt.length : ℚ)) > (0.3 : ℚ) := by
        have h1 := hcond.1 hlt
        calc (0.3 : ℚ) = 3 / 10 := by norm_num
          _ < _ := h1
      rw [if_pos hlt, if_pos hgt]
      rw [Score.toRat_mul, hLv]
      norm_num [Score.toRat]
    · have hngt : ¬ (((min ns.length nt.length : ℚ) /
          (max ns.length nt.length : ℚ)) > (0.3 : ℚ)) := by
        intro hgt
        apply hlt
        apply hcond.2
        calc (3 : ℚ) / 10 = 0.3 := by norm_num
          _ < _ := hgt
      rw [if_neg hlt, if_neg hngt]
      rw [Score.toRat_ofNat]
      norm_num [Score.toRat]
  · rw [tier2Step]
    rw [hsw]
    dsimp only
    rw [if_pos hacc]
    exact ⟨rfl, rfl⟩

/-- Witness for C7 (amended) at the concrete tier-2 acceptance from the
C5 scenario (score 0.73 > 0.2, not below 0.6 hence not fuzzy). -/
theorem claim_C7_witness :
    (scanWindow (splitIntoParagraphs
        "Alpha beta gamma\nZzz qqq\nOrder 4711 now".data)
        ([] : List Nat) (normalize "Order 4711 now".data) 0
      = (some 2, ⟨1022000, 1400000⟩)) ∧
    Score.lt ⟨2, 10⟩ ⟨1022000, 1400000⟩ ∧
    (((candidateScore "ab".data "cd".data 1).toRat
        = amendedCandidateScore "ab".data "cd".data 1) ∧
      (tier2Step (splitIntoParagraphs
          "Alpha beta gamma\nZzz qqq\nOrder 4711 now".data)
          initAdaptState (Segment.mk 0 "Order 4711 now".data)).assigns
        = initAdaptState.assigns ++ [(0, 2)] ∧
      (tier2Step (splitIntoParagraphs
          "Alpha beta gamma\nZzz qqq\nOrder 4711 now".data)
          initAdaptState (Segment.mk 0 "Order 4711 now".data)).fuzzy
        = (if Score.lt ⟨1022000, 1400000⟩ ⟨6, 10⟩ then
            initAdaptState.fuzzy + 1
          else initAdaptState.fuzzy)) :=
  ⟨by decide, by decide,
    claim_C7_amended_score "ab".data "cd".data 1 _ initAdaptState
      (Segment.mk 0 "Order 4711 now".data) 2 ⟨1022000, 1400000⟩
      (by decide) (by decide)⟩

/-! ## Degenerate inputs (claim C8) -/

theorem tier2Step_nil (st : AdaptState) (seg : Segment) :
    tier2Step [] st seg
      = { st with unmatchedCnt := st.unmatchedCnt + 1,
                  unmatchedSegs := st.unmatchedSegs ++ [seg] } := by
  have hsw : scanWindow [] st.used (normalize seg.text) st.tIdx
      = (none, Score.ofNat 0) := by
    rw [scanWindow]
    simp
  rw [tier2Step, hsw]
  dsimp only
  rw [tier2Fallback]
  rw [if_neg (by simp)]

theorem tier2_fold_nil (segs : List Segment) (st : AdaptState) :
    segs.foldl (tier2Step []) st
      = { st with unmatchedCnt := st.unmatchedCnt + segs.length,
                  unmatchedSegs := st.unmatchedSegs ++ segs } := by
  induction segs generalizing st with
  | nil => simp
  | cons seg rest ih =>
    simp only [List.foldl_cons, tier2Step_nil, ih]
    simp only [List.length_cons, List.append_assoc, List.singleton_append]
    have h : st.unmatchedCnt + 1 + rest.length
        = st.unmatchedCnt + (rest.length + 1) := by omega
    rw [h]

theorem tier3_fold_nil_pool (l : List Segment) (st : AdaptState) :
    (l.foldl tier3Step (st, ([] : List (List Char × Nat)))).1
      = { st with unmatchedSegs := st.unmatchedSegs ++ l } := by
  induction l generalizing st with
  | nil => simp
  | cons seg rest ih =>
    simp only [List.foldl_cons]
    rw [tier3Step_none (st, []) seg rfl]
    rw [ih]
    simp

theorem tier3Run_nil (st2 : AdaptState) : tier3Run [] st2 = st2 := by
  rw [tier3Run]
  split
  · dsimp only
    have hpool : (List.filter (fun c => !st2.used.contains c.2)
        (List.map (fun p => (p.2, p.1)) ([] : List (List Char)).enum)) = [] :=
      rfl
    rw [hpool, tier3_fold_nil_pool]
    simp
  · rfl

/-- **C8 counterexample.**  With one segment and an empty translation
the strict `matchTexts` returns the segment in the UnmatchedSet and
`stats.unmatched = 1` — not the claimed trivially-empty UnmatchedSet and
all-zero counts.  (The strict matcher with an empty segment list and a
nonempty translation similarly reports `fuzzy = paragraph count`.) -/
theorem claim_C8_counterexample :
    (matchTextsStrict [Segment.mk 0 "Hi".data] []).unmatched
        = [Segment.mk 0 "Hi".data] ∧
    (matchTextsStrict [Segment.mk 0 "Hi".data] []).stats.unmatched = 1 ∧
    (matchTextsStrict [] ("a\nb".data)).stats.fuzzy = 2 := by decide

/-- **C8 (amended).**  Degenerate inputs never fail and never produce a
Mapping entry (`mapping = []`, `matched = 0`).  With an empty segment
list both strategies return empty Mapping and UnmatchedSet with
`unmatched = 0`; `fuzzy` is 0 in the adaptive strategy, while the strict
strategy reports `fuzzy` equal to the number of non-empty translation
lines (its merge counter).  With a translation containing no non-empty
lines, both strategies return every segment in the UnmatchedSet with
`unmatched = total` and `fuzzy = 0`. -/
theorem claim_C8_amended_degenerate (segs : List Segment) (T : List Char) :
    (segs = [] →
      (matchTextsStrict segs T).mapping = [] ∧
      (matchTextsStrict segs T).unmatched = [] ∧
      (matchTextsStrict segs T).stats.matched = 0 ∧
      (matchTextsStrict segs T).stats.unmatched = 0 ∧
      (matchTextsStrict segs T).stats.fuzzy = (splitIntoParagraphs T).length ∧
      (matchTextsAdaptive segs T).mapping = [] ∧
      (matchTextsAdaptive segs T).unmatched = [] ∧
      (matchTextsAdaptive segs T).stats.matched = 0 ∧
      (matchTextsAdaptive segs T).stats.unmatched = 0 ∧
      (matchTextsAdaptive segs T).stats.fuzzy = 0) ∧
    (splitIntoParagraphs T = [] →
      (matchTextsStrict segs T).mapping = [] ∧
      (matchTextsStrict segs T).unmatched = segs ∧
      (matchTextsStrict segs T).stats.matched = 0 ∧
      (matchTextsStrict segs T).stats.unmatched = segs.length ∧
      (matchTextsStrict segs T).stats.fuzzy = 0 ∧
      (matchTextsAdaptive segs T).mapping = [] ∧
      (matchTextsAdaptive segs T).unmatched = segs ∧
      (matchTextsAdaptive segs T).stats.matched = 0 ∧
      (matchTextsAdaptive segs T).stats.unmatched = segs.length ∧
      (matchTextsAdaptive segs T).stats.fuzzy = 0) := by
  constructor
  · intro hs
    subst hs
    have hstr : (matchTextsStrict [] T).mapping = [] ∧
        (matchTextsStrict [] T).unmatched = [] ∧
        (matchTextsStrict [] T).stats.matched = 0 ∧
        (matchTextsStrict [] T).stats.unmatched = 0 ∧
        (matchTextsStrict [] T).stats.fuzzy
          = (splitIntoParagraphs T).length := by
      rw [matchTextsStrict]
      split
      · next h0 =>
        refine ⟨rfl, rfl, by simp, rfl, ?_⟩
        dsimp only
        simp only [List.length_nil] at h0 ⊢
        omega
      · split
        · next h2 => exact absurd h2 (by simp)
        · exact ⟨rfl, rfl, by simp, rfl, by simp⟩
    have had : (matchTextsAdaptive [] T).mapping = [] ∧
        (matchTextsAdaptive [] T).unmatched = [] ∧
        (matchTextsAdaptive [] T).stats.matched = 0 ∧
        (matchTextsAdaptive [] T).stats.unmatched = 0 ∧
        (matchTextsAdaptive [] T).stats.fuzzy = 0 := by
      rw [matchTextsAdaptive]
      split
      · exact ⟨rfl, rfl, by simp, rfl, rfl⟩
      · have h3 : tier3Run (splitIntoParagraphs T)
            (tier2Run [] (splitIntoParagraphs T)) = initAdaptState := by
          rw [tier2Run]
          simp only [List.foldl_nil]
          rw [tier3Run]
          rw [if_neg (by simp [initAdaptState])]
        refine ⟨?_, ?_, ?_, ?_, ?_⟩ <;>
          (dsimp only; rw [h3]; try simp [initAdaptState])
    exact ⟨hstr.1, hstr.2.1, hstr.2.2.1, hstr.2.2.2.1, hstr.2.2.2.2,
      had.1, had.2.1, had.2.2.1, had.2.2.2.1, had.2.2.2.2⟩
  · intro hp
    have hstr : (matchTextsStrict segs T).mapping = [] ∧
        (matchTextsStrict segs T).unmatched = segs ∧
        (matchTextsStrict segs T).stats.matched = 0 ∧
        (matchTextsStrict segs T).stats.unmatched = segs.length ∧
        (matchTextsStrict segs T).stats.fuzzy = 0 := by
      rw [matchTextsStrict]
      simp only [hp, List.length_nil]
      split
      · next h0 =>
        have hseg : segs = [] := List.length_eq_zero.1 h0
        subst hseg
        exact ⟨rfl, rfl, rfl, by simp, rfl⟩
      · split
        · next h2 =>
          refine ⟨?_, by simp, rfl, by simp, rfl⟩
          rw [List.zip_nil_right]
          rfl
        · next h1 h2 => omega
    have had : (matchTextsAdaptive segs T).mapping = [] ∧
        (matchTextsAdaptive segs T).unmatched = segs ∧
        (matchTextsAdaptive segs T).stats.matched = 0 ∧
        (matchTextsAdaptive segs T).stats.unmatched = segs.length ∧
        (matchTextsAdaptive segs T).stats.fuzzy = 0 := by
      rw [matchTextsAdaptive]
      simp only [hp, List.length_nil]
      split
      · next h0 =>
        have hseg : segs = [] := List.length_eq_zero.1 h0
        subst hseg
        exact ⟨rfl, rfl, rfl, rfl, rfl⟩
      · have h2 : tier3Run [] (tier2Run segs [])
            = { initAdaptState with unmatchedCnt := segs.length,
                                    unmatchedSegs := segs } := by
          rw [tier2Run, tier2_fold_nil, tier3Run_nil]
          simp [initAdaptState]
        refine ⟨?_, ?_, ?_, ?_, ?_⟩ <;>
          (dsimp only; rw [h2]; try simp [initAdaptState])
    exact ⟨hstr.1, hstr.2.1, hstr.2.2.1, hstr.2.2.2.1, hstr.2.2.2.2,
      had.1, had.2.1, had.2.2.1, had.2.2.2.1, had.2.2.2.2⟩

/-- Witness for C8 (amended) at both degenerate cases: an empty segment
list with a two-line translation, and one segment with an empty
translation. -/
theorem claim_C8_witness :
    (matchTextsStrict [] ("a\nb".data)).stats.fuzzy
        = (splitIntoParagraphs "a\nb".data).length ∧
    (matchTextsAdaptive [Segment.mk 0 "Hi".data] []).unmatched
        = [Segment.mk 0 "Hi".data] :=
  ⟨((claim_C8_amended_degenerate [] ("a\nb".data)).1 rfl).2.2.2.2.1,
   ((claim_C8_amended_degenerate [Segment.mk 0 "Hi".data] []).2
      (by decide)).2.2.2.2.2.2.1⟩

/-! ## Mapping-value invariants (claim C10) -/

theorem head_dropWhile_not (p : Char → Bool) (l : List Char) :
    ∀ c, (l.dropWhile p).head? = some c → p c = false := by
  induction l with
  | nil => intro c hc; simp at hc
  | cons x xs ih =>
    intro c hc
    rw [List.dropWhile_cons] at hc
    split at hc
    · exact ih c hc
    · next h =>
      simp only [List.head?_cons, Option.some.injEq] at hc
      subst hc
      simpa using h

theorem mem_jsTrim (l : List Char) (c : Char) (h : c ∈ jsTrim l) : c ∈ l := by
  rw [jsTrim, List.mem_reverse] at h
  have h1 := (List.dropWhile_sublist (p := isJsWs)
    (l := (l.dropWhile isJsWs).reverse)).mem h
  rw [List.mem_reverse] at h1
  exact (List.dropWhile_sublist (p := isJsWs) (l := l)).mem h1

theorem jsTrim_head (l : List Char) (c : Char)
    (h : (jsTrim l).head? = some c) : isJsWs c = false := by
  rw [jsTrim, List.head?_reverse] at h
  have hd : ((l.dropWhile isJsWs).reverse.dropWhile isJsWs) ≠ [] := by
    intro h0
    rw [h0] at h
    simp at h
  have hY : ((l.dropWhile isJsWs).reverse).getLast? = some c := by
    conv_lhs => rw [← List.takeWhile_append_dropWhile (p := isJsWs)
      (l := (l.dropWhile isJsWs).reverse)]
    rw [List.getLast?_append_of_ne_nil _ hd]
    exact h
  rw [List.getLast?_reverse] at hY
  exact head_dropWhile_not isJsWs _ c hY

theorem jsTrim_getLast (l : List Char) (c : Char)
    (h : (jsTrim l).getLast? = some c) : isJsWs c = false := by
  rw [jsTrim, List.getLast?_reverse] at h
  exact head_dropWhile_not isJsWs _ c h

theorem splitRN_no_lf (l : List Char) :
    ∀ line ∈ splitRN l, '\n' ∉ line := by
  induction l using splitRN.induct with
  | case1 =>
    intro line h
    rw [splitRN] at h
    rw [List.mem_singleton] at h
    subst h
    simp
  | case2 rest ih =>
    intro line h
    rw [splitRN] at h
    rcases List.mem_cons.1 h with h | h
    · subst h; simp
    · exact ih line h
  | case3 rest ih =>
    intro line h
    rw [splitRN] at h
    rcases List.mem_cons.1 h with h | h
    · subst h; simp
    · exact ih line h
  | case4 c rest h1 h2 hm ih =>
    intro line h
    rw [splitRN] at h
    · rw [hm, List.mem_singleton] at h
      subst h
      intro hmem
      rw [List.mem_singleton] at hmem
      exact h2 hmem.symm
    · exact h1
    · exact h2
  | case5 c rest h1 h2 l ls hm ih =>
    intro line h
    rw [splitRN] at h
    · rw [hm] at h
      rcases List.mem_cons.1 h with h | h
      · subst h
        intro hmem
        rcases List.mem_cons.1 hmem with h' | h'
        · exact h2 h'.symm
        · exact ih l (by rw [hm]; simp) h'
      · exact ih line (by rw [hm]; exact List.mem_cons_of_mem l h)
    · exact h1
    · exact h2

/-- Every paragraph produced by `splitIntoParagraphs` is non-empty,
contains no line feed, and starts and ends with a non-whitespace
character. -/
theorem splitIntoParagraphs_spec (T : List Char) :
    ∀ p ∈ splitIntoParagraphs T, p ≠ [] ∧ ('\n' ∉ p) ∧
      (∀ c, p.head? = some c → isJsWs c = false) ∧
      (∀ c, p.getLast? = some c → isJsWs c = false) := by
  intro p hp
  rw [splitIntoParagraphs, List.mem_filter] at hp
  obtain ⟨hmem, hlen⟩ := hp
  rw [List.mem_map] at hmem
  obtain ⟨line, hline, rfl⟩ := hmem
  refine ⟨?_, ?_, fun c => jsTrim_head line c, fun c => jsTrim_getLast line c⟩
  · intro h0
    rw [h0] at hlen
    simp at hlen
  · intro hn
    exact splitRN_no_lf T line hline (mem_jsTrim line _ hn)

/-- A single-space join of non-empty paragraphs inherits their
properties. -/
theorem joinSpace_spec (T : List Char) (ls : List (List Char)) (hne : ls ≠ [])
    (hall : ∀ l ∈ ls, l ∈ splitIntoParagraphs T) :
    joinSpace ls ≠ [] ∧ ('\n' ∉ joinSpace ls) ∧
      (∀ c, (joinSpace ls).head? = some c → isJsWs c = false) ∧
      (∀ c, (joinSpace ls).getLast? = some c → isJsWs c = false) := by
  induction ls with
  | nil => exact absurd rfl hne
  | cons x xs ih =>
    obtain ⟨hxne, hxlf, hxh, hxl⟩ :=
      splitIntoParagraphs_spec T x (hall x (by simp))
    match xs with
    | [] =>
      exact ⟨hxne, hxlf, hxh, hxl⟩
    | x' :: xs' =>
      obtain ⟨hjne, hjlf, hjh, hjl⟩ := ih (by simp)
        (fun l hl => hall l (by simp [hl]))
      rw [show joinSpace (x :: x' :: xs')
          = x ++ ' ' :: joinSpace (x' :: xs') from rfl]
      refine ⟨by simp [hxne], ?_, ?_, ?_⟩
      · intro hmem
        rw [List.mem_append, List.mem_cons] at hmem
        rcases hmem with h | h | h
        · exact hxlf h
        · cases h
        · exact hjlf h
      · intro c hc
        cases hx2 : x with
        | nil => exact absurd hx2 hxne
        | cons y ys =>
          rw [hx2, List.cons_append, List.head?_cons] at hc
          have hyc : y = c := by simpa using hc
          exact hyc ▸ hxh y (by rw [hx2]; rfl)
      · intro c hc
        rw [List.getLast?_append_of_ne_nil _ (by simp)] at hc
        rw [show (' ' :: joinSpace (x' :: xs'))
            = [' '] ++ joinSpace (x' :: xs') from rfl] at hc
        rw [List.getLast?_append_of_ne_nil _ hjne] at hc
        exact hjl c hc

/-- **C10 counterexample.**  The translation `"a\rb"` — a carriage
return not followed by a line feed — is a single line for the splitter
(`split(/\r?\n/)` only removes a CR that precedes an LF) and `trim`
leaves the interior CR in place, so the stored mapping value contains a
carriage return, U+000D, a newline character: the claimed "contains no
newline characters" fails.  (The value still satisfies the rest of the
claim: it is one trimmed non-empty line.) -/
theorem claim_C10_counterexample :
    (matchTextsStrict [Segment.mk 0 "x".data] ("a\rb".data)).mapping
        = [(0, ['a', '\r', 'b'])] ∧
    '\r' ∈ ['a', '\r', 'b'] := by decide

theorem mapSet_values (P : List Char → Prop) (m : List (Nat × List Char))
    (k : Nat) (v : List Char) (hm : ∀ q ∈ m, P q.2) (hv : P v) :
    ∀ q ∈ mapSet m k v, P q.2 := by
  intro q hq
  rw [mapSet] at hq
  split at hq
  · rw [List.mem_map] at hq
    obtain ⟨p, hp, rfl⟩ := hq
    split
    · exact hv
    · exact hm p hp
  · rw [List.mem_append] at hq
    rcases hq with h | h
    · exact hm q h
    · rw [List.mem_singleton] at h
      subst h
      exact hv

theorem foldl_mapSet_values (P : List Char → Prop) {α : Type}
    (ps : List α) (kf : α → Nat) (vf : α → List Char)
    (m0 : List (Nat × List Char)) (h0 : ∀ q ∈ m0, P q.2)
    (hp : ∀ a ∈ ps, P (vf a)) :
    ∀ q ∈ ps.foldl (fun m a => mapSet m (kf a) (vf a)) m0, P q.2 := by
  induction ps generalizing m0 with
  | nil => exact h0
  | cons a as ih =>
    simp only [List.foldl_cons]
    exact ih _ (mapSet_values P m0 (kf a) (vf a) h0 (hp a (by simp)))
      (fun a' ha' => hp a' (by simp [ha']))

theorem foldl_mapSet_pair_values (P : List Char → Prop)
    (ps : List (Nat × Segment × List Char))
    (m0 : List (Nat × List Char)) (a0 : List (Nat × Nat))
    (h0 : ∀ q ∈ m0, P q.2) (hp : ∀ p ∈ ps, P p.2.2) :
    ∀ q ∈ (ps.foldl (fun acc p => (mapSet acc.1 p.2.1.id p.2.2,
        acc.2 ++ [(p.2.1.id, p.1)])) (m0, a0)).1, P q.2 := by
  induction ps generalizing m0 a0 with
  | nil => exact h0
  | cons p' qs ih =>
    simp only [List.foldl_cons]
    exact ih _ _ (mapSet_values P m0 p'.2.1.id p'.2.2 h0 (hp p' (by simp)))
      (fun a' ha' => hp a' (by simp [ha']))

theorem tier2Step_values (P : List Char → Prop) (tps : List (List Char))
    (st : AdaptState) (seg : Segment)
    (hm : ∀ q ∈ st.mapping, P q.2) (hps : ∀ t ∈ tps, P t) :
    ∀ q ∈ (tier2Step tps st seg).mapping, P q.2 := by
  rw [tier2Step]
  cases hsw : scanWindow tps st.used (normalize seg.text) st.tIdx with
  | mk o s =>
    cases o with
    | some c =>
      dsimp only
      split
      · dsimp only
        have hc := (scanWindow_some tps st.used (normalize seg.text)
          st.tIdx c s hsw).2.1
        refine mapSet_values P st.mapping seg.id _ hm (hps _ ?_)
        rw [List.getD_eq_getElem _ _ hc]
        exact List.getElem_mem _
      · rw [tier2Fallback]
        split
        · next hcond =>
          dsimp only
          have hlt : st.tIdx < tps.length := by
            simp only [Bool.and_eq_true, decide_eq_true_eq] at hcond
            exact hcond.1
          refine mapSet_values P st.mapping seg.id _ hm (hps _ ?_)
          rw [List.getD_eq_getElem _ _ hlt]
          exact List.getElem_mem _
        · exact hm
    | none =>
      dsimp only
      rw [tier2Fallback]
      split
      · next hcond =>
        dsimp only
        have hlt : st.tIdx < tps.length := by
          simp only [Bool.and_eq_true, decide_eq_true_eq] at hcond
          exact hcond.1
        refine mapSet_values P st.mapping seg.id _ hm (hps _ ?_)
        rw [List.getD_eq_getElem _ _ hlt]
        exact List.getElem_mem _
      · exact hm

theorem tier2_fold_values (P : List Char → Prop) (segs : List Segment)
    (tps : List (List Char)) (st : AdaptState)
    (hm : ∀ q ∈ st.mapping, P q.2) (hps : ∀ t ∈ tps, P t) :
    ∀ q ∈ (segs.foldl (tier2Step tps) st).mapping, P q.2 := by
  induction segs generalizing st with
  | nil => exact hm
  | cons seg rest ih =>
    simp only [List.foldl_cons]
    exact ih _ (tier2Step_values P tps st seg hm hps)

theorem tier3_fold_values (P : List Char → Prop) (l : List Segment)
    (acc : AdaptState × List (List Char × Nat))
    (hm : ∀ q ∈ acc.1.mapping, P q.2)
    (hpool : ∀ cand ∈ acc.2, P cand.1) :
    ∀ q ∈ (l.foldl tier3Step acc).1.mapping, P q.2 := by
  induction l generalizing acc with
  | nil => exact hm
  | cons seg rest ih =>
    simp only [List.foldl_cons]
    rcases hb : (tier3Best seg acc.2).1 with _ | c
    · rw [tier3Step_none acc seg hb]
      exact ih _ hm hpool
    · rw [tier3Step_some acc seg c hb]
      apply ih
      · dsimp only
        exact mapSet_values P acc.1.mapping seg.id c.1 hm
          (hpool c (tier3Best_mem seg acc.2 c hb))
      · dsimp only
        intro cand hcand
        exact hpool cand ((removeFirst_sublist acc.2 c).mem hcand)

theorem tier3Run_values (P : List Char → Prop) (tps : List (List Char))
    (st2 : AdaptState) (hm : ∀ q ∈ st2.mapping, P q.2)
    (hps : ∀ t ∈ tps, P t) :
    ∀ q ∈ (tier3Run tps st2).mapping, P q.2 := by
  rw [tier3Run]
  split
  · dsimp only
    apply tier3_fold_values
    · exact hm
    · intro cand hcand
      rw [List.mem_filter] at hcand
      obtain ⟨hmem, _⟩ := hcand
      rw [List.mem_map] at hmem
      obtain ⟨p, hpm, rfl⟩ := hmem
      have hget := List.mem_enum_iff_get?.1 hpm
      exact hps _ (List.get?_mem hget)
  · exact hm

theorem matchTextsStrict_values (P : List Char → Prop) (segs : List Segment)
    (T : List Char) (hps : ∀ t ∈ splitIntoParagraphs T, P t)
    (hdrop : ∀ n, n < (splitIntoParagraphs T).length →
      P (joinSpace ((splitIntoParagraphs T).drop n))) :
    ∀ q ∈ (matchTextsStrict segs T).mapping, P q.2 := by
  rw [matchTextsStrict]
  split
  · intro q hq
    refine foldl_mapSet_values P _
      (fun (p : Segment × List Char) => p.1.id)
      (fun (p : Segment × List Char) => p.2) [] (by simp) ?_ q hq
    intro a ha
    exact hps a.2 (List.mem_zip (show (a.1, a.2) ∈ _ from ha)).2
  · split
    · intro q hq
      refine foldl_mapSet_values P _
        (fun (p : Segment × List Char) => p.1.id)
        (fun (p : Segment × List Char) => p.2) [] (by simp) ?_ q hq
      intro a ha
      exact hps a.2 (List.mem_zip (show (a.1, a.2) ∈ _ from ha)).2
    · next h2 =>
      intro q hq
      refine foldl_mapSet_values P _
        (fun (p : Nat × Segment) => p.2.id)
        (fun (p : Nat × Segment) => if p.1 < segs.length - 1 then
            (splitIntoParagraphs T).getD p.1 []
          else joinSpace ((splitIntoParagraphs T).drop p.1)) []
        (by simp) ?_ q hq
      intro a ha
      have hget := List.mem_enum_iff_get?.1 ha
      obtain ⟨hi, -⟩ := List.get?_eq_some.1 hget
      have hlt : segs.length < (splitIntoParagraphs T).length := by omega
      dsimp only
      split
      · refine hps _ ?_
        rw [List.getD_eq_getElem _ _ (by omega)]
        exact List.getElem_mem _
      · exact hdrop a.1 (by omega)

theorem matchTextsAdaptive_values (P : List Char → Prop)
    (segs : List Segment) (T : List Char)
    (hps : ∀ t ∈ splitIntoParagraphs T, P t) :
    ∀ q ∈ (matchTextsAdaptive segs T).mapping, P q.2 := by
  rw [matchTextsAdaptive]
  split
  · intro q hq
    refine foldl_mapSet_pair_values P _ [] [] (by simp) ?_ q hq
    intro p hp
    have hget := List.mem_enum_iff_get?.1 hp
    have hmem := List.get?_mem hget
    exact hps p.2.2 (List.mem_zip (show (p.2.1, p.2.2) ∈ _ from hmem)).2
  · rw [tier2Run]
    intro q hq
    refine tier3Run_values P _ _ ?_ ?_ q hq
    · refine tier2_fold_values P segs _ initAdaptState ?_ ?_
      · intro q' hq'
        simp [initAdaptState] at hq'
      · intro t ht
        exact hps t ht
    · intro t ht
      exact hps t ht

/-- **C10 (amended).**  Every value stored in the returned Mapping (both
strategies) is a non-empty string with no line-feed characters and no
leading or trailing whitespace, and is the single-space join of a
non-empty list of trimmed non-empty translation lines (a single line
except in the strict merge case).  A lone carriage return that is not
part of a CRLF pair may remain inside a value — see the
counterexample — which is the only amendment to the claim. -/
theorem claim_C10_amended_values (segs : List Segment) (T : List Char) :
    (∀ q ∈ (matchTextsStrict segs T).mapping,
      q.2 ≠ [] ∧ ('\n' ∉ q.2) ∧
      (∀ c, q.2.head? = some c → isJsWs c = false) ∧
      (∀ c, q.2.getLast? = some c → isJsWs c = false) ∧
      ∃ ls, ls ≠ [] ∧ (∀ l ∈ ls, l ∈ splitIntoParagraphs T) ∧
        q.2 = joinSpace ls) ∧
    (∀ q ∈ (matchTextsAdaptive segs T).mapping,
      q.2 ≠ [] ∧ ('\n' ∉ q.2) ∧
      (∀ c, q.2.head? = some c → isJsWs c = false) ∧
      (∀ c, q.2.getLast? = some c → isJsWs c = false) ∧
      ∃ ls, ls ≠ [] ∧ (∀ l ∈ ls, l ∈ splitIntoParagraphs T) ∧
        q.2 = joinSpace ls) := by
  have hgood : ∀ v, (∃ ls, ls ≠ [] ∧
      (∀ l ∈ ls, l ∈ splitIntoParagraphs T) ∧ v = joinSpace ls) →
      v ≠ [] ∧ ('\n' ∉ v) ∧
      (∀ c, v.head? = some c → isJsWs c = false) ∧
      (∀ c, v.getLast? = some c → isJsWs c = false) ∧
      ∃ ls, ls ≠ [] ∧ (∀ l ∈ ls, l ∈ splitIntoParagraphs T) ∧
        v = joinSpace ls := by
    intro v hv
    obtain ⟨ls, h1, h2, rfl⟩ := hv
    obtain ⟨g1, g2, g3, g4⟩ := joinSpace_spec T ls h1 h2
    exact ⟨g1, g2, g3, g4, ls, h1, h2, rfl⟩
  have hsingle : ∀ t ∈ splitIntoParagraphs T,
      ∃ ls, ls ≠ [] ∧ (∀ l ∈ ls, l ∈ splitIntoParagraphs T) ∧
        t = joinSpace ls := by
    intro t ht
    exact ⟨[t], by simp, by simpa using ht, rfl⟩
  have hdrop : ∀ n, n < (splitIntoParagraphs T).length →
      ∃ ls, ls ≠ [] ∧ (∀ l ∈ ls, l ∈ splitIntoParagraphs T) ∧
        joinSpace ((splitIntoParagraphs T).drop n) = joinSpace ls := by
    intro n hn
    refine ⟨(splitIntoParagraphs T).drop n, ?_, ?_, rfl⟩
    · intro h0
      rw [List.drop_eq_nil_iff_le] at h0
      omega
    · intro l hl
      exact (List.drop_subset _ _) hl
  constructor
  · intro q hq
    exact hgood q.2 (matchTextsStrict_values
      (fun v => ∃ ls, ls ≠ [] ∧
        (∀ l ∈ ls, l ∈ splitIntoParagraphs T) ∧ v = joinSpace ls)
      segs T hsingle hdrop q hq)
  · intro q hq
    exact hgood q.2 (matchTextsAdaptive_values
      (fun v => ∃ ls, ls ≠ [] ∧
        (∀ l ∈ ls, l ∈ splitIntoParagraphs T) ∧ v = joinSpace ls)
      segs T hsingle q hq)

/-- Witness for C10 (amended) at a one-segment, one-line input. -/
theorem claim_C10_witness :
    ((0, "Bonjour".data) ∈ (matchTextsStrict [Segment.mk 0 "Hello".data]
        "Bonjour".data).mapping) ∧
    ("Bonjour".data ≠ [] ∧ ('\n' ∉ "Bonjour".data) ∧
      (∀ c, "Bonjour".data.head? = some c → isJsWs c = false) ∧
      (∀ c, "Bonjour".data.getLast? = some c → isJsWs c = false) ∧
      ∃ ls, ls ≠ [] ∧
        (∀ l ∈ ls, l ∈ splitIntoParagraphs "Bonjour".data) ∧
        "Bonjour".data = joinSpace ls) :=
  ⟨by decide,
    (claim_C10_amended_values [Segment.mk 0 "Hello".data]
      "Bonjour".data).1 (0, "Bonjour".data) (by decide)⟩

end FormatWord
